import Mathlib

/-!
Verification development for the incremental narrative state merge engine
(`narrative_driver_unified.py`).  Python values flowing through the merge are
modelled by `Value` (exact rationals stand in for floats: every operation the
merge performs on numbers — comparison, max, min, truncation — is exact),
Python dicts by insertion-ordered association lists, and the merge functions
are translated clause by clause from the source.
-/

namespace NarrativeMerge

/-- Python-ish runtime values as they occur in the merge engine's data model
(scalars and flat lists; nested objects do not occur in the schema the engine
processes, so they are not modelled). -/
inductive Value where
  | null
  | num (q : ℚ)
  | str (s : String)
  | list (elems : List Value)

/-- A Python dict as an insertion-ordered association list (keys unique in any
dict produced by the interpreter; `pySet` preserves that invariant). -/
abbrev Entity := List (String × Value)

/-- Python truthiness (`bool(x)`) for the modelled values. -/
def truthy : Value → Bool
  | .null => false
  | .num q => decide (q ≠ 0)
  | .str s => decide (s ≠ "")
  | .list [] => false
  | .list (_ :: _) => true

/-- Membership test of `x in (None, "", [], {})` used by `merge_two_entity`
(`{}` omitted: object-valued fields do not occur in this data model). -/
def emptyLike : Value → Bool
  | .null => true
  | .str s => decide (s = "")
  | .list [] => true
  | _ => false

/-- Python `d.get(k)`: value of the first (only) binding of `k`, else `None`. -/
def pyGet : Entity → String → Value
  | [], _ => .null
  | (k', v) :: rest, k => if k' = k then v else pyGet rest k

/-- Python `k in d`. -/
def pyMem : Entity → String → Bool
  | [], _ => false
  | (k', _) :: rest, k => if k' = k then true else pyMem rest k

/-- Python `d.get(k, default)`. -/
def pyGetD (e : Entity) (k : String) (d : Value) : Value :=
  if pyMem e k then pyGet e k else d

/-- Python `d[k] = v`: update in place if present (keeping position), else
append at the end — CPython dict insertion-order semantics. -/
def pySet : Entity → String → Value → Entity
  | [], k, v => [(k, v)]
  | (k', v') :: rest, k, v =>
    if k' = k then (k', v) :: rest else (k', v') :: pySet rest k v

/-- Keys of a dict in order. -/
def keysOf (e : Entity) : List String := e.map Prod.fst

/-- Decimal representation of a natural number. -/
def natRepr (n : Nat) : String := Nat.repr n

/-- Python `str(x)` for the modelled values.  Exact for strings and `None`
(the cases the merge's data model exercises: key fields, similarity fields,
aliases, relation slots and question fields are strings or null).  Numbers
and lists get a reasonable rendering; Python's float `repr` and list `repr`
are not reproduced bit-for-bit (no such value reaches `str` in the schema). -/
def pyStr : Value → String
  | .null => "None"
  | .str s => s
  | .num q =>
    if q.den = 1 then
      (if q.num < 0 then "-" ++ natRepr q.num.natAbs else natRepr q.num.natAbs)
    else
      (if q.num < 0 then "-" ++ natRepr q.num.natAbs else natRepr q.num.natAbs)
        ++ "/" ++ natRepr q.den
  | .list _ => "[...]"

/-- Python `str.strip()` / regex `\s` whitespace set (ASCII fragment). -/
def isPySpace (c : Char) : Bool :=
  c = ' ' || c = '\t' || c = '\n' || c = '\x0d' || c = '\x0b' || c = '\x0c'

/-- Strip leading and trailing whitespace from a char list. -/
def stripChars (l : List Char) : List Char :=
  ((l.dropWhile isPySpace).reverse.dropWhile isPySpace).reverse

/-- Collapse internal whitespace runs to single spaces (`re.sub(r"\s+", " ", .)`).
The flag records whether the previous character was whitespace. -/
def collapseGo (prevSp : Bool) : List Char → List Char
  | [] => []
  | c :: rest =>
    if isPySpace c then
      (if prevSp then collapseGo true rest else ' ' :: collapseGo true rest)
    else c :: collapseGo false rest

/-- Source `normalize_name`: strip, lowercase, collapse whitespace runs.
`Char.toLower` covers the ASCII range the data uses. -/
def normalize_name (s : String) : String :=
  String.mk (collapseGo false ((stripChars s.data).map Char.toLower))

/-- Regex `\w` word characters (ASCII fragment: alphanumerics and underscore). -/
def wordChar (c : Char) : Bool := c.isAlphanum || c = '_'

/-- Split a char list into maximal `\w+` runs (`re.findall(r"\w+", .)`).
`acc` holds the current run reversed. -/
def tokenGo (acc : List Char) : List Char → List String
  | [] => if acc = [] then [] else [String.mk acc.reverse]
  | c :: rest =>
    if wordChar c then tokenGo (c :: acc) rest
    else if acc = [] then tokenGo [] rest
    else String.mk acc.reverse :: tokenGo [] rest

/-- First-occurrence deduplication, modelling conversion to a Python set for
the purposes of membership, intersection and cardinality. -/
def dedupGo {α : Type} [DecidableEq α] (seen : List α) : List α → List α
  | [] => []
  | a :: l => if a ∈ seen then dedupGo seen l else a :: dedupGo (a :: seen) l

/-- Word-token set of a string, lowercased (source: `set(re.findall(r"\w+", a.lower()))`). -/
def pyTokens (s : String) : List String :=
  dedupGo [] (tokenGo [] (s.data.map Char.toLower))

/-- Source `jaccard`: token-set overlap.  Both sets empty gives 1.0; exactly one
empty gives 0.0; otherwise `|a ∩ b| / max 1 |a ∪ b|` as an exact rational. -/
def jaccard (a b : String) : ℚ :=
  let sa := pyTokens a
  let sb := pyTokens b
  if sa = [] ∧ sb = [] then 1
  else if sa = [] ∨ sb = [] then 0
  else
    mkRat ((sa.filter (fun t => t ∈ sb)).length)
      (max 1 (sa ++ sb.filter (fun t => ¬ t ∈ sa)).length)

/-- Python `max(x, y)` on numbers: returns `y` only when it is strictly larger. -/
def pyMax (x y : ℚ) : ℚ := if x < y then y else x

/-- Python `x or 0`: replace falsy values by the number 0. -/
def orZero (v : Value) : Value := if truthy v then v else .num 0

/-- Digits to a natural number. -/
def digitsVal (l : List Char) : Nat :=
  l.foldl (fun n c => 10 * n + (c.toNat - 48)) 0

/-- Parse an optional sign, returning the sign as an integer and the rest. -/
def signSplit : List Char → Int × List Char
  | '-' :: rest => (-1, rest)
  | '+' :: rest => (1, rest)
  | l => (1, l)

/-- Build the rational `sign * mant * 10^(expo - fracLen)` exactly. -/
def decimalToRat (sign : Int) (mant : Nat) (fracLen : Nat) (expo : Int) : ℚ :=
  if expo ≥ fracLen then
    mkRat (sign * mant * ((10 : Int) ^ (expo - fracLen).toNat)) 1
  else
    mkRat (sign * mant) ((10 : Nat) ^ ((fracLen : Int) - expo).toNat)

/-- Parse the exponent tail `([eE][+-]?digits)?` of a float literal; returns the
exponent (0 when absent) or `none` when malformed. -/
def expoTail : List Char → Option Int
  | [] => some 0
  | c :: rest =>
    if c = 'e' ∨ c = 'E' then
      (match signSplit rest with
       | (es, rest2) =>
         (match rest2.takeWhile Char.isDigit, rest2.dropWhile Char.isDigit with
          | [], _ => none
          | ds, [] => some (es * digitsVal ds)
          | _, _ => none))
    else none

/-- Parse a Python `float(...)` literal (digits, optional fraction, optional
exponent, optional surrounding whitespace and sign).  `inf`/`nan` and digit
underscores are not modelled (never produced by this pipeline's data). -/
def parseFloatChars (l : List Char) : Option ℚ :=
  match signSplit (stripChars l) with
  | (sign, body) =>
    let intDs := body.takeWhile Char.isDigit
    let rest1 := body.dropWhile Char.isDigit
    match rest1 with
    | '.' :: rest2 =>
      let fracDs := rest2.takeWhile Char.isDigit
      let rest3 := rest2.dropWhile Char.isDigit
      if intDs = [] ∧ fracDs = [] then none
      else
        (expoTail rest3).map fun e =>
          decimalToRat sign (digitsVal (intDs ++ fracDs)) fracDs.length e
    | _ =>
      if intDs = [] then none
      else (expoTail rest1).map fun e => decimalToRat sign (digitsVal intDs) 0 e

/-- Python `float(x)` on a modelled value: numbers pass through, strings are
parsed, anything else raises (modelled as `none`). -/
def pyFloat : Value → Option ℚ
  | .num q => some q
  | .str s => parseFloatChars s.data
  | _ => none

/-- Parse a Python `int(...)` string literal: optional whitespace, optional
sign, one or more digits, nothing else. -/
def parseIntChars (l : List Char) : Option Int :=
  match signSplit (stripChars l) with
  | (sign, body) =>
    match body.takeWhile Char.isDigit, body.dropWhile Char.isDigit with
    | [], _ => none
    | ds, [] => some (sign * digitsVal ds)
    | _, _ => none

/-- Python `int(x)`: floats truncate toward zero, strings parse as integer
literals, anything else raises (modelled as `none`). -/
def pyInt : Value → Option Int
  | .num q => some (Int.tdiv q.num q.den)
  | .str s => parseIntChars s.data
  | _ => none

/-- Leftmost `L(\d+)` match in a char list: the value of the maximal digit run
following the first `L` that is directly followed by a digit. -/
def lGo : List Char → Option Nat
  | [] => none
  | c :: rest =>
    if c = 'L' && (match rest with | d :: _ => d.isDigit | [] => false) then
      some (digitsVal (rest.takeWhile Char.isDigit))
    else lGo rest

/-- Leftmost `L`-prefixed number in a span string, if any. -/
def findLNum (s : String) : Option Nat := lGo s.data

/-- Source `parse_span_rank` on a string span: the extracted `L`-number, or the
`10^9` sentinel when the span is empty or has no such token. -/
def parse_span_rank (s : String) : Int :=
  if s = "" then 1000000000
  else ((findLNum s).map Int.ofNat).getD 1000000000

/-- Source `parse_span_rank` on an arbitrary value, with `none` modelling the
`TypeError` a truthy non-string argument raises inside `re.search`. -/
def spanRankE (v : Value) : Option Int :=
  if truthy v then
    match v with
    | .str s => some (parse_span_rank s)
    | _ => none
  else some 1000000000

/-- Code-point comparison on char lists (Python string `<=`). -/
def charsLe : List Char → List Char → Bool
  | [], _ => true
  | _ :: _, [] => false
  | a :: u, b :: v =>
    if a.toNat < b.toNat then true
    else if b.toNat < a.toNat then false
    else charsLe u v

/-- Python `<=` on strings. -/
def strLeB (a b : String) : Bool := charsLe a.data b.data

/-- Python `<` on strings. -/
def strLtB (a b : String) : Bool := strLeB a b && !(decide (a = b))

/-- Propositional form of `strLeB`, for the sort. -/
def strLe (a b : String) : Prop := strLeB a b = true

instance : DecidableRel strLe := fun a b => instDecidableEqBool (strLeB a b) true

/-- Source alias merge: `sorted(list({*map(str, x), *map(str, y)}))` — stringify
both alias lists, take the set union, sort. -/
def mergeAliases (x y : List Value) : List Value :=
  (List.insertionSort strLe (dedupGo [] (x.map pyStr ++ y.map pyStr))).map Value.str

/-- One iteration of the `merge_two_entity` field loop, for field `k` with
incoming value `v`; `a` is the original accumulated record (the source reads
`a.get(k)` in the `first_appearance` branch), `out` the record under
construction.  Exception handlers become the `none` match arms. -/
def mergeField (a : Entity) (out : Entity) (kv : String × Value) : Entity :=
  let k := kv.1
  let v := kv.2
  if emptyLike (pyGet out k) then
    pySet out k v
  else if k = "aliases" then
    match pyGet out k, v with
    | .list x, .list y => pySet out k (.list (mergeAliases x y))
    | _, _ => out
  else if k = "confidence" then
    match pyFloat (orZero (pyGet out k)), pyFloat (orZero v) with
    | some x, some y => pySet out k (.num (pyMax x y))
    | _, _ => out
  else if k = "first_appearance" then
    match spanRankE (pyGet a k), spanRankE v with
    | some ra, some rv => if ra ≤ rv then pySet out k (pyGet a k) else pySet out k v
    | _, _ => out
  else out

/-- Source `merge_two_entity`: start from `a`, fold every field of `b` through
the reconciliation rules. -/
def merge_two_entity (a b : Entity) : Entity := b.foldl (mergeField a) a

/-- Exact-key match from `merge_entities_by_key`: every key field non-null on
both records and normalized-equal. -/
def keyMatchB (key_fields : List String) (ex cand : Entity) : Bool :=
  key_fields.all fun k =>
    !(emptyLikeNull (pyGet ex k)) && !(emptyLikeNull (pyGet cand k)) &&
      decide (normalize_name (pyStr (pyGet ex k)) = normalize_name (pyStr (pyGet cand k)))
where
  /-- `x is None` (absent keys read back as `None` through `.get`). -/
  emptyLikeNull : Value → Bool
    | .null => true
    | _ => false

/-- Similarity fallback from `merge_entities_by_key`: running max over the
configured text fields of the jaccard similarity of their stringifications
(absent fields default to `""`, so `str` is applied to the present value). -/
def simScore (simFields : List String) (ex cand : Entity) : ℚ :=
  simFields.foldl
    (fun sim tf =>
      pyMax sim (jaccard (pyStr (pyGetD ex tf (.str ""))) (pyStr (pyGetD cand tf (.str "")))))
    0

/-- The per-record match decision of the scan in `merge_entities_by_key`:
exact key match, else (when similarity fields are configured) similarity at or
above the threshold. -/
def entMatchB (key_fields simFields : List String) (thr : ℚ) (ex cand : Entity) : Bool :=
  keyMatchB key_fields ex cand ||
    (!simFields.isEmpty && decide (thr ≤ simScore simFields ex cand))

/-- Index of the first list element satisfying `pred` (the `for idx, ex in
enumerate(result)` scan with `break`). -/
def scanIdx {α : Type} (pred : α → Bool) : List α → Option Nat
  | [] => none
  | x :: xs => if pred x then some 0 else (scanIdx pred xs).map (fun i => i + 1)

/-- One candidate's processing in `merge_entities_by_key`: merge into the first
matching accumulated record, else append. -/
def mergeStep (key_fields simFields : List String) (thr : ℚ)
    (result : List Entity) (cand : Entity) : List Entity :=
  match scanIdx (fun ex => entMatchB key_fields simFields thr ex cand) result with
  | some i => result.set i (merge_two_entity (result.getD i []) cand)
  | none => result ++ [cand]

/-- Source `merge_entities_by_key`. -/
def merge_entities_by_key (prev new : List Entity) (key_fields : List String)
    (simFields : List String) (thr : ℚ) : List Entity :=
  new.foldl (mergeStep key_fields simFields thr) prev

/-- Source `" ".join(ex.get("actors", []) or [])`.  List elements are
stringified with `pyStr` (the pipeline's actors are strings, on which this is
exact); joining a string joins its characters, as in Python. -/
def joinActors (x : Entity) : String :=
  let v := pyGetD x "actors" (.list [])
  match (if truthy v then v else .list []) with
  | .list l => String.intercalate " " (l.map pyStr)
  | .str s => String.intercalate " " (s.data.map fun c => String.mk [c])
  | _ => ""

/-- Event match signal: max of summary similarity and joined-actors similarity. -/
def eventSim (ex e : Entity) : ℚ :=
  pyMax (jaccard (pyStr (pyGetD ex "summary" (.str ""))) (pyStr (pyGetD e "summary" (.str ""))))
    (jaccard (joinActors ex) (joinActors e))

/-- Event match at the source's 0.6 threshold. -/
def eventMatchB (ex e : Entity) : Bool := decide (mkRat 3 5 ≤ eventSim ex e)

/-- Fields backfilled from the incoming event when the merged value is falsy. -/
def backfillFields : List String :=
  ["location", "iso_time", "relative_time", "evidence_span", "title"]

/-- The backfill loop of `merge_events`. -/
def backfill (m e : Entity) : Entity :=
  backfillFields.foldl
    (fun m k => if !truthy (pyGet m k) && truthy (pyGet e k) then pySet m k (pyGet e k) else m)
    m

/-- The `merged["order"] = min(...)` step of `merge_events`; `int()` failures
on either side leave the record unchanged (the `except: pass`). -/
def eventOrderMerge (exRec e m : Entity) : Entity :=
  match pyInt (pyGetD exRec "order" (.num 1000000000)),
      pyInt (pyGetD e "order" (.num 1000000000)) with
  | some x, some y => pySet m "order" (.num (mkRat (min x y) 1))
  | _, _ => m

/-- The full merged record replacing `result[matched]` in `merge_events`. -/
def eventMergeRecord (exRec e : Entity) : Entity :=
  eventOrderMerge exRec e (backfill (merge_two_entity exRec e) e)

/-- One incoming event's processing in `merge_events`. -/
def eventStep (result : List Entity) (e : Entity) : List Entity :=
  match scanIdx (fun ex => eventMatchB ex e) result with
  | some i => result.set i (eventMergeRecord (result.getD i []) e)
  | none => result ++ [e]

/-- The accumulated event list after processing all incoming events, before the
final re-sort. -/
def merge_events_unsorted (prev new : List Entity) : List Entity :=
  new.foldl eventStep prev

/-- Source `_order_key`: `(int(order-or-sentinel), span rank)`, with any raised
coercion error collapsing to `(sentinel, sentinel)`. -/
def orderKey (ev : Entity) : Int × Int :=
  match pyInt (pyGetD ev "order" (.num 1000000000)), spanRankE (pyGet ev "evidence_span") with
  | some o, some r => (o, r)
  | _, _ => (1000000000, 1000000000)

/-- Lexicographic order on the sort keys (Python tuple comparison). -/
def keyLe (p q : Int × Int) : Prop := p.1 < q.1 ∨ (p.1 = q.1 ∧ p.2 ≤ q.2)

/-- Python's stable `list.sort(key=_order_key)` comparison relation. -/
def eventLe (a b : Entity) : Prop := keyLe (orderKey a) (orderKey b)

instance : DecidableRel keyLe := fun _ _ => instDecidableOr
instance : DecidableRel eventLe := fun _ _ => (inferInstance : Decidable (keyLe _ _))

instance : IsTotal Entity eventLe :=
  ⟨by
    intro a b
    rcases lt_trichotomy (orderKey a).1 (orderKey b).1 with h | h | h
    · exact Or.inl (Or.inl h)
    · rcases le_total (orderKey a).2 (orderKey b).2 with h2 | h2
      · exact Or.inl (Or.inr ⟨h, h2⟩)
      · exact Or.inr (Or.inr ⟨h.symm, h2⟩)
    · exact Or.inr (Or.inl h)⟩

instance : IsTrans Entity eventLe :=
  ⟨by
    intro a b c hab hbc
    rcases hab with h1 | ⟨e1, l1⟩
    · rcases hbc with h2 | ⟨e2, l2⟩
      · exact Or.inl (h1.trans h2)
      · exact Or.inl (e2 ▸ h1)
    · rcases hbc with h2 | ⟨e2, l2⟩
      · exact Or.inl (e1 ▸ h2)
      · exact Or.inr ⟨e1.trans e2, l1.trans l2⟩⟩

/-- Source `merge_events`: fold all incoming events, then stable-sort by
`(order, span rank)` ascending (insertion sort is extensionally equal to any
stable sort by the same key, hence to Python's). -/
def merge_events (prev new : List Entity) : List Entity :=
  List.insertionSort eventLe (merge_events_unsorted prev new)

/-- First-occurrence key-based deduplication shared by `merge_relations` and
`merge_unresolved` (`seen`-set walk in the source). -/
def dedupKeyGo {κ : Type} [DecidableEq κ] (key : Entity → κ) (seen : List κ) :
    List Entity → List Entity
  | [] => []
  | r :: rs =>
    if key r ∈ seen then dedupKeyGo key seen rs
    else r :: dedupKeyGo key (key r :: seen) rs

/-- Normalized relation triple. -/
def relKey (r : Entity) : String × String × String :=
  (normalize_name (pyStr (pyGetD r "subject" (.str ""))),
    normalize_name (pyStr (pyGetD r "predicate" (.str ""))),
    normalize_name (pyStr (pyGetD r "object" (.str ""))))

/-- Source `merge_relations`: walk `prev ++ new`, keep first occurrence of each
normalized triple. -/
def merge_relations (prev new : List Entity) : List Entity :=
  dedupKeyGo relKey [] (prev ++ new)

/-- Elements iterated by `for h in (it.get("hypotheses") or [])`: a list gives
its elements; a (truthy) string iterates its characters, as in Python. -/
def hypsElems (it : Entity) : List Value :=
  let v := pyGetD it "hypotheses" .null
  match (if truthy v then v else .list []) with
  | .list l => l
  | .str s => s.data.map fun c => .str (String.mk [c])
  | _ => []

/-- Argument coercion inside `normalize_name(h)`: `(h or "")` must be a string
(the pipeline's hypotheses are strings, on which this is exact). -/
def hypString (v : Value) : String :=
  if truthy v then pyStr v else ""

/-- Normalized question key: `(normalized question, sorted normalized hypotheses)`. -/
def unresKey (it : Entity) : String × List String :=
  (normalize_name (pyStr (pyGetD it "question" (.str ""))),
    List.insertionSort strLe ((hypsElems it).map fun h => normalize_name (hypString h)))

/-- Source `merge_unresolved`. -/
def merge_unresolved (prev new : List Entity) : List Entity :=
  dedupKeyGo unresKey [] (prev ++ new)

/-- The aggregate narrative state: six named sequences (`ensure_state_keys`
guarantees schema completeness, which the structure representation builds in). -/
structure NarrativeState where
  characters : List Entity
  locations : List Entity
  items : List Entity
  events : List Entity
  relations : List Entity
  unresolved : List Entity

/-- Source `merge_states`: the fold of one partial state into the accumulated
state, with the source's per-category key fields, similarity fields and the
0.7 threshold. -/
def merge_states (prev cur : NarrativeState) : NarrativeState where
  characters :=
    merge_entities_by_key prev.characters cur.characters ["name"]
      ["description", "role"] (mkRat 7 10)
  locations :=
    merge_entities_by_key prev.locations cur.locations ["name", "type"]
      ["description"] (mkRat 7 10)
  items :=
    merge_entities_by_key prev.items cur.items ["name", "category"]
      ["description"] (mkRat 7 10)
  events := merge_events prev.events cur.events
  relations := merge_relations prev.relations cur.relations
  unresolved := merge_unresolved prev.unresolved cur.unresolved

/-- The empty accumulated state the pipeline starts from. -/
def emptyState : NarrativeState :=
  ⟨[], [], [], [], [], []⟩

/-! Canonical-form predicates used by the idempotence analysis.  A record is
merge-canonical when re-merging it with itself reproduces it exactly: alias
lists already in sorted set form, confidence numeric, and (for events) an
integer `order` field. -/

/-- Strictly ascending list of strings (sorted and duplicate-free). -/
def strictSortedStr : List String → Bool
  | [] => true
  | [_] => true
  | a :: b :: r => strLtB a b && strictSortedStr (b :: r)

/-- All list elements are strings. -/
def asStrList : List Value → Option (List String)
  | [] => some []
  | .str s :: r => (asStrList r).map (fun t => s :: t)
  | _ => none

/-- Canonical alias value: empty, a non-list, or a strictly sorted string list. -/
def aliasCanonB : Value → Bool
  | .list [] => true
  | .list l => (match asStrList l with | some ss => strictSortedStr ss | none => false)
  | _ => true

/-- Canonical confidence value: empty or numeric. -/
def confCanonB (v : Value) : Bool :=
  emptyLike v || (match v with | .num _ => true | _ => false)

/-- Dict representation invariant: unique keys. -/
def nodupKeys (p : Entity) : Prop := (keysOf p).Nodup

/-- Merge-canonical entity record. -/
def canonEnt (p : Entity) : Prop :=
  nodupKeys p ∧ aliasCanonB (pyGet p "aliases") = true ∧ confCanonB (pyGet p "confidence") = true

/-- The `order` field is present with an integer value. -/
def intOrderB (p : Entity) : Bool :=
  match pyGet p "order" with
  | .num q => decide (q.den = 1)
  | _ => false

/-- Merge-canonical event record. -/
def canonEvent (p : Entity) : Prop := canonEnt p ∧ intOrderB p = true

/-- No record of `A` matches (as the scanned accumulated record) any record of
`B` (as the candidate) under matcher `mt`. -/
def NoCross (mt : Entity → Entity → Bool) (A B : List Entity) : Prop :=
  ∀ a ∈ A, ∀ b ∈ B, mt a b = false

/-- No two distinct records of `A` match each other, in either role. -/
def PairSep (mt : Entity → Entity → Bool) (A : List Entity) : Prop :=
  A.Pairwise fun p q => mt p q = false ∧ mt q p = false

/-- The character matcher with the fold's configuration. -/
def charMatchB : Entity → Entity → Bool :=
  entMatchB ["name"] ["description", "role"] (mkRat 7 10)

/-- The location matcher with the fold's configuration. -/
def locMatchB : Entity → Entity → Bool :=
  entMatchB ["name", "type"] ["description"] (mkRat 7 10)

/-- The item matcher with the fold's configuration. -/
def itemMatchB : Entity → Entity → Bool :=
  entMatchB ["name", "category"] ["description"] (mkRat 7 10)

/-- Hypotheses of the amended idempotence claim: every record of the partial
state `P` is merge-canonical, no two records of `P` match each other, and no
record of `P` matches a record of the accumulated state `S`. -/
def FreshCanonical (S P : NarrativeState) : Prop :=
  (NoCross charMatchB S.characters P.characters ∧ PairSep charMatchB P.characters ∧
    (∀ p ∈ P.characters, canonEnt p)) ∧
  (NoCross locMatchB S.locations P.locations ∧ PairSep locMatchB P.locations ∧
    (∀ p ∈ P.locations, canonEnt p)) ∧
  (NoCross itemMatchB S.items P.items ∧ PairSep itemMatchB P.items ∧
    (∀ p ∈ P.items, canonEnt p)) ∧
  (NoCross eventMatchB S.events P.events ∧ PairSep eventMatchB P.events ∧
    (∀ p ∈ P.events, canonEvent p))

/-- Hypotheses of the amended order-independence claim: within each category,
the records of `P1` and `P2` match neither each other (in any role and
direction) nor the accumulated state, and are internally non-matching; the
relation/question keys of `P1` and `P2` are disjoint. -/
def ChunksSeparated (S P1 P2 : NarrativeState) : Prop :=
  (NoCross charMatchB S.characters P1.characters ∧ NoCross charMatchB S.characters P2.characters ∧
    NoCross charMatchB P1.characters P2.characters ∧ NoCross charMatchB P2.characters P1.characters ∧
    PairSep charMatchB P1.characters ∧ PairSep charMatchB P2.characters) ∧
  (NoCross locMatchB S.locations P1.locations ∧ NoCross locMatchB S.locations P2.locations ∧
    NoCross locMatchB P1.locations P2.locations ∧ NoCross locMatchB P2.locations P1.locations ∧
    PairSep locMatchB P1.locations ∧ PairSep locMatchB P2.locations) ∧
  (NoCross itemMatchB S.items P1.items ∧ NoCross itemMatchB S.items P2.items ∧
    NoCross itemMatchB P1.items P2.items ∧ NoCross itemMatchB P2.items P1.items ∧
    PairSep itemMatchB P1.items ∧ PairSep itemMatchB P2.items) ∧
  (NoCross eventMatchB S.events P1.events ∧ NoCross eventMatchB S.events P2.events ∧
    NoCross eventMatchB P1.events P2.events ∧ NoCross eventMatchB P2.events P1.events ∧
    PairSep eventMatchB P1.events ∧ PairSep eventMatchB P2.events) ∧
  (∀ r1 ∈ P1.relations, ∀ r2 ∈ P2.relations, relKey r1 ≠ relKey r2) ∧
  (∀ u1 ∈ P1.unresolved, ∀ u2 ∈ P2.unresolved, unresKey u1 ≠ unresKey u2)

/-- Category-wise permutation equivalence of two states (same records per
category, possibly in different list order). -/
def statePerm (A B : NarrativeState) : Prop :=
  A.characters.Perm B.characters ∧ A.locations.Perm B.locations ∧
    A.items.Perm B.items ∧ A.events.Perm B.events ∧
    A.relations.Perm B.relations ∧ A.unresolved.Perm B.unresolved

instance (p : Entity) : Decidable (nodupKeys p) := by
  unfold nodupKeys; infer_instance

instance (p : Entity) : Decidable (canonEnt p) := by
  unfold canonEnt; infer_instance

instance (p : Entity) : Decidable (canonEvent p) := by
  unfold canonEvent; infer_instance

instance (mt : Entity → Entity → Bool) (A B : List Entity) : Decidable (NoCross mt A B) := by
  unfold NoCross; infer_instance

instance (mt : Entity → Entity → Bool) (A : List Entity) : Decidable (PairSep mt A) := by
  unfold PairSep; infer_instance

instance (S P : NarrativeState) : Decidable (FreshCanonical S P) := by
  unfold FreshCanonical; infer_instance

instance (S P1 P2 : NarrativeState) : Decidable (ChunksSeparated S P1 P2) := by
  unfold ChunksSeparated; infer_instance

/-! The response extractor (`extract_first_json`): a JSON value model, a model
of `json.loads`, the fenced-block search and the brace-balance fallback scan. -/

/-- Parsed JSON values. -/
inductive Json where
  | null
  | bool (b : Bool)
  | num (q : ℚ)
  | str (s : String)
  | arr (elems : List Json)
  | obj (fields : List (String × Json))

/-- JSON insignificant whitespace. -/
def isJsonWs (c : Char) : Bool := c = ' ' || c = '\t' || c = '\n' || c = '\x0d'

/-- Skip insignificant whitespace. -/
def skipWs (l : List Char) : List Char := l.dropWhile isJsonWs

/-- Hexadecimal digit value. -/
def hexVal (c : Char) : Option Nat :=
  if c.isDigit then some (c.toNat - 48)
  else if 'a' ≤ c ∧ c ≤ 'f' then some (c.toNat - 87)
  else if 'A' ≤ c ∧ c ≤ 'F' then some (c.toNat - 70)
  else none

/-- JSON string body after the opening quote: contents and remaining input.
Escapes are decoded; unescaped control characters are rejected, as in
`json.loads` (surrogate-pair recombination is not modelled). -/
def jstrGo (acc : List Char) : List Char → Option (String × List Char)
  | [] => none
  | c :: rest =>
    if c = '"' then some (String.mk acc.reverse, rest)
    else if c = '\\' then
      match rest with
      | [] => none
      | e :: rest2 =>
        if e = '"' then jstrGo ('"' :: acc) rest2
        else if e = '\\' then jstrGo ('\\' :: acc) rest2
        else if e = '/' then jstrGo ('/' :: acc) rest2
        else if e = 'b' then jstrGo ('\x08' :: acc) rest2
        else if e = 'f' then jstrGo ('\x0c' :: acc) rest2
        else if e = 'n' then jstrGo ('\n' :: acc) rest2
        else if e = 'r' then jstrGo ('\x0d' :: acc) rest2
        else if e = 't' then jstrGo ('\t' :: acc) rest2
        else if e = 'u' then
          match rest2 with
          | h1 :: h2 :: h3 :: h4 :: rest3 =>
            (match hexVal h1, hexVal h2, hexVal h3, hexVal h4 with
             | some x1, some x2, some x3, some x4 =>
               jstrGo (Char.ofNat (((x1 * 16 + x2) * 16 + x3) * 16 + x4) :: acc) rest3
             | _, _, _, _ => none)
          | _ => none
        else none
    else if c.toNat < 32 then none
    else jstrGo (c :: acc) rest

/-- JSON number: `-?(0|[1-9][0-9]*)(\.[0-9]+)?([eE][+-]?[0-9]+)?` (strict
grammar; `NaN`/`Infinity` extensions are not modelled). -/
def jnumGo (l : List Char) : Option (ℚ × List Char) :=
  let sign : Int × List Char := match l with | '-' :: r => (-1, r) | r => (1, r)
  match sign.2.takeWhile Char.isDigit, sign.2.dropWhile Char.isDigit with
  | [], _ => none
  | ds, rest1 =>
    if ds.length > 1 ∧ ds.headD '0' = '0' then none
    else
      let intVal := digitsVal ds
      match rest1 with
      | '.' :: rest2 =>
        (match rest2.takeWhile Char.isDigit, rest2.dropWhile Char.isDigit with
         | [], _ => none
         | fs, rest3 =>
           (match jexpGo rest3 with
            | some (e, rest4) =>
              some (decimalToRat sign.1 (digitsVal (ds ++ fs)) fs.length e, rest4)
            | none => none))
      | _ =>
        (match jexpGo rest1 with
         | some (e, rest4) => some (decimalToRat sign.1 intVal 0 e, rest4)
         | none => none)
where
  /-- Optional exponent part; returns exponent 0 and the input unchanged when
  no exponent marker is present. -/
  jexpGo : List Char → Option (Int × List Char)
    | c :: rest =>
      if c = 'e' ∨ c = 'E' then
        match signSplit rest with
        | (es, rest2) =>
          (match rest2.takeWhile Char.isDigit, rest2.dropWhile Char.isDigit with
           | [], _ => none
           | es2, rest3 => some (es * digitsVal es2, rest3))
      else some (0, c :: rest)
    | [] => some (0, [])

/-- Python dict update used while building an object: replace in place on a
duplicate key, else append. -/
def objUpsert : List (String × Json) → String → Json → List (String × Json)
  | [], k, v => [(k, v)]
  | (k', v') :: rest, k, v =>
    if k' = k then (k', v) :: rest else (k', v') :: objUpsert rest k v

/-- Build an object from parsed members with Python dict duplicate-key
semantics (last value wins, first position kept). -/
def objBuild (fs : List (String × Json)) : List (String × Json) :=
  fs.foldl (fun acc kv => objUpsert acc kv.1 kv.2) []

/-- Prefix test on char lists. -/
def listStartsWith : List Char → List Char → Bool
  | [], _ => true
  | _ :: _, [] => false
  | p :: ps, c :: cs => p = c && listStartsWith ps cs

/-- Parse modes: a value, the element tail of an array, the member tail of an
object. -/
inductive PMode where
  | val
  | arrElems
  | objFields

/-- Parse results for the three modes. -/
inductive PRes where
  | val (j : Json) (rest : List Char)
  | elems (js : List Json) (rest : List Char)
  | fields (fs : List (String × Json)) (rest : List Char)

/-- Recursive-descent JSON parser (fuel-indexed for structural termination). -/
def parseJ : Nat → PMode → List Char → Option PRes
  | 0, _, _ => none
  | Nat.succ fuel, PMode.val, l =>
    match skipWs l with
    | [] => none
    | '{' :: rest =>
      (match skipWs rest with
       | '}' :: rest2 => some (.val (.obj []) rest2)
       | _ =>
         match parseJ fuel PMode.objFields rest with
         | some (.fields fs rest2) => some (.val (.obj (objBuild fs)) rest2)
         | _ => none)
    | '[' :: rest =>
      (match skipWs rest with
       | ']' :: rest2 => some (.val (.arr []) rest2)
       | _ =>
         match parseJ fuel PMode.arrElems rest with
         | some (.elems js rest2) => some (.val (.arr js) rest2)
         | _ => none)
    | '"' :: rest =>
      (match jstrGo [] rest with
       | some (s, rest2) => some (.val (.str s) rest2)
       | none => none)
    | 't' :: rest =>
      if listStartsWith ['r', 'u', 'e'] rest then some (.val (.bool true) (rest.drop 3)) else none
    | 'f' :: rest =>
      if listStartsWith ['a', 'l', 's', 'e'] rest then some (.val (.bool false) (rest.drop 4))
      else none
    | 'n' :: rest =>
      if listStartsWith ['u', 'l', 'l'] rest then some (.val .null (rest.drop 3)) else none
    | l2 =>
      (match jnumGo l2 with
       | some (q, rest) => some (.val (.num q) rest)
       | none => none)
  | Nat.succ fuel, PMode.objFields, l =>
    (match skipWs l with
     | '"' :: rest =>
       (match jstrGo [] rest with
        | some (k, rest2) =>
          (match skipWs rest2 with
           | ':' :: rest3 =>
             (match parseJ fuel PMode.val rest3 with
              | some (.val v rest4) =>
                (match skipWs rest4 with
                 | ',' :: rest5 =>
                   (match parseJ fuel PMode.objFields rest5 with
                    | some (.fields fs rest6) => some (.fields ((k, v) :: fs) rest6)
                    | _ => none)
                 | '}' :: rest5 => some (.fields [(k, v)] rest5)
                 | _ => none)
              | _ => none)
           | _ => none)
        | none => none)
     | _ => none)
  | Nat.succ fuel, PMode.arrElems, l =>
    (match parseJ fuel PMode.val l with
     | some (.val v rest) =>
       (match skipWs rest with
        | ',' :: rest2 =>
          (match parseJ fuel PMode.arrElems rest2 with
           | some (.elems js rest3) => some (.elems (v :: js) rest3)
           | _ => none)
        | ']' :: rest2 => some (.elems [v] rest2)
        | _ => none)
     | _ => none)

/-- `json.loads` on a char list: one JSON value, surrounding whitespace only. -/
def loadsChars (l : List Char) : Option Json :=
  match parseJ (2 * l.length + 2) PMode.val l with
  | some (.val j rest) => if skipWs rest = [] then some j else none
  | _ => none

/-- `json.loads` on a string. -/
def json_loads (s : String) : Option Json := loadsChars s.data

/-- The backquote character, i.e. the fence delimiter character. -/
def bq : Char := Char.ofNat 96

/-- Closing context of the lazy group: optional whitespace then a fence. -/
def closesFence (l : List Char) : Bool :=
  listStartsWith [bq, bq, bq] (l.dropWhile isPySpace)

/-- Lazy scan for the regex fragment `.*?\}` followed by `\s*` and a fence:
take the shortest extension ending at a closing brace whose remainder closes
the fence.  `acc` holds the consumed characters reversed. -/
def lazyClose (acc : List Char) : List Char → Option (List Char)
  | [] => none
  | c :: rest =>
    if c = '}' && closesFence rest then some ((c :: acc).reverse)
    else lazyClose (c :: acc) rest

/-- Body of a fence match after the opening fence and optional `json` tag:
`\s*` then the brace-delimited lazy group. -/
def fenceTail (r : List Char) : Option (List Char) :=
  match r.dropWhile isPySpace with
  | '{' :: body => (lazyClose [] body).map (fun g => '{' :: g)
  | _ => none

/-- Attempt the fenced-block pattern at the current position: an opening
fence, optionally tagged `json` (tried first, as the regex does), then the
group. -/
def fenceFrom (l : List Char) : Option (List Char) :=
  if listStartsWith [bq, bq, bq] l then
    let r := l.drop 3
    match (if listStartsWith ['j', 's', 'o', 'n'] r then fenceTail (r.drop 4) else none) with
    | some g => some g
    | none => fenceTail r
  else none

/-- Leftmost position at which the fenced-block pattern matches (the
`re.search` scan). -/
def fenceSearch : List Char → Option (List Char)
  | [] => none
  | c :: rest =>
    match fenceFrom (c :: rest) with
    | some g => some g
    | none => fenceSearch rest

/-- Depth-counted scan from an opening brace: the candidate substring ending
where the brace depth first returns to zero, if it does.  `acc` holds consumed
characters reversed. -/
def candScan (depth : Nat) (acc : List Char) : List Char → Option (List Char)
  | [] => none
  | c :: rest =>
    if c = '{' then candScan (depth + 1) (c :: acc) rest
    else if c = '}' then
      (if depth = 1 then some ((c :: acc).reverse) else candScan (depth - 1) (c :: acc) rest)
    else candScan depth (c :: acc) rest

/-- The parse attempt the fallback scan makes at one start position: only
opening-brace positions yield a candidate; the candidate is parsed once and a
failure moves the scan on (the `break`). -/
def candParse (l : List Char) : Option Json :=
  match l with
  | '{' :: _ => (candScan 0 [] l).bind loadsChars
  | _ => none

/-- The candidate parse at position `p` of the text. -/
def candParseAt (l : List Char) (p : Nat) : Option Json := candParse (l.drop p)

/-- The fallback scan over all start positions, left to right, returning the
first successful candidate parse. -/
def scanStarts : List Char → Option Json
  | [] => none
  | c :: rest =>
    match candParse (c :: rest) with
    | some j => some j
    | none => scanStarts rest

/-- The parse of the leftmost fenced-block group, if any. -/
def fenceParse (s : String) : Option Json := (fenceSearch s.data).bind loadsChars

/-- Source `extract_first_json`: a parseable fenced block wins; otherwise the
brace-balance scan; otherwise nothing. -/
def extract_first_json (s : String) : Option Json :=
  match fenceParse s with
  | some j => some j
  | none => scanStarts s.data

/-- Top-level keys of an object (discriminator used to state inequalities of
parsed objects without a decidable equality on `Json`). -/
def objTopKeys : Json → List String
  | .obj l => l.map Prod.fst
  | _ => []

/-- Alias strings of an alias field value (discriminator for state
inequalities). -/
def aliasStrings : Value → List String
  | .list l => l.map pyStr
  | _ => []

/-- Character names of a state in list order (discriminator for state
inequalities). -/
def charNames (S : NarrativeState) : List String :=
  S.characters.map fun e => pyStr (pyGet e "name")

/-! Concrete records and states used by the claim theorems. -/

/-- Accumulated character of the end-to-end scenario. -/
def aliceOld : Entity :=
  [("name", .str "Alice"), ("aliases", .list [.str "Al"]), ("confidence", .num (mkRat 1 2))]

/-- Incoming character of the end-to-end scenario. -/
def aliceNew : Entity :=
  [("name", .str "alice"), ("aliases", .list [.str "Ally"]), ("confidence", .num (mkRat 9 10)),
    ("description", .str "a guide")]

/-- Merged character list of the end-to-end scenario. -/
def c1Merged : List Entity :=
  merge_entities_by_key [aliceOld] [aliceNew] ["name"] ["description", "role"] (mkRat 7 10)

/-- Event with order 3 and span `L50`. -/
def evOrder3 : Entity := [("order", .num 3), ("evidence_span", .str "L50")]

/-- Event with order 1 and span `L10`. -/
def evOrder1 : Entity := [("order", .num 1), ("evidence_span", .str "L10")]

/-- Accumulated relation `(A, knows, B)`. -/
def relKnows : Entity :=
  [("subject", .str "A"), ("predicate", .str "knows"), ("object", .str "B")]

/-- Incoming case/whitespace variant `(a, KNOWS, b)`. -/
def relKnowsVar : Entity :=
  [("subject", .str "a "), ("predicate", .str " KNOWS"), ("object", .str "b")]

/-- Accumulated record with a present, comparable key and a description. -/
def bobRec : Entity := [("name", .str "bob"), ("description", .str "alpha beta")]

/-- Candidate with a different present key but identical description. -/
def carolRec : Entity := [("name", .str "carol"), ("description", .str "alpha beta")]

/-- Record whose confidence is a non-empty unparsable string. -/
def confHigh : Entity := [("confidence", .str "high")]

/-- Record whose confidence is the number 0.9. -/
def confNine : Entity := [("confidence", .num (mkRat 9 10))]

/-- Record whose confidence is the number 0.5. -/
def confHalf : Entity := [("confidence", .num (mkRat 1 2))]

/-- Character with an unsorted alias list (not merge-canonical). -/
def bobUnsorted : Entity :=
  [("name", .str "bob"), ("aliases", .list [.str "B", .str "A"])]

/-- Partial state holding only `bobUnsorted`. -/
def pUnsorted : NarrativeState := ⟨[bobUnsorted], [], [], [], [], []⟩

/-- Character fully separated from `carolSep` (distinct name, description and
role token sets). -/
def bobSep : Entity :=
  [("name", .str "bob"), ("description", .str "alpha beta"), ("role", .str "knight")]

/-- Character fully separated from `bobSep`. -/
def carolSep : Entity :=
  [("name", .str "carol"), ("description", .str "gamma delta"), ("role", .str "farmer")]

/-- Partial state holding only `bobSep`. -/
def pBob : NarrativeState := ⟨[bobSep], [], [], [], [], []⟩

/-- Partial state holding only `carolSep`. -/
def pCarol : NarrativeState := ⟨[carolSep], [], [], [], [], []⟩

/-- Canonical single-character partial state for the idempotence witness. -/
def pCanon : NarrativeState := ⟨[[("name", .str "bob")]], [], [], [], [], []⟩

/-- Oracle output with a valid object at position 0 and a later fenced object. -/
def exC5 : String := "\x7b\"a\": 1\x7d ```json\n\x7b\"b\": 2\x7d\n``` x"

/-- Oracle output with prose, an unbalanced fragment and one valid object,
and no fence. -/
def exScanW : String := "hello \x7b\"k\": [1, 2.5e1, true, null]\x7d bye"

/-- The object the fallback scan extracts from `exScanW`. -/
def exScanWObj : Json :=
  .obj [("k", .arr [.num 1, .num 25, .bool true, .null])]

/-! Dictionary lemmas. -/

theorem pyGet_pySet_self (e : Entity) (k : String) (v : Value) :
    pyGet (pySet e k v) k = v := by
  induction e with
  | nil => simp [pySet, pyGet]
  | cons kv rest ih =>
    rcases kv with ⟨k0, v0⟩
    by_cases h : k0 = k
    · subst h; simp [pySet, pyGet]
    · simp [pySet, pyGet, h, ih]

theorem pyGet_pySet_ne (e : Entity) (k v k') (hne : k ≠ k') :
    pyGet (pySet e k v) k' = pyGet e k' := by
  induction e with
  | nil => simp [pySet, pyGet, hne]
  | cons kv rest ih =>
    rcases kv with ⟨k0, v0⟩
    by_cases h : k0 = k
    · subst h
      simp only [pySet, if_pos rfl]
      simp [pyGet, hne]
    · simp only [pySet, if_neg h]
      by_cases h' : k0 = k'
      · simp [pyGet, h']
      · simp [pyGet, h', ih]

theorem pySet_self_of_get (e : Entity) (k : String) (v : Value)
    (hm : pyMem e k = true) (hg : pyGet e k = v) : pySet e k v = e := by
  induction e with
  | nil => simp [pyMem] at hm
  | cons kv rest ih =>
    rcases kv with ⟨k0, v0⟩
    by_cases h : k0 = k
    · subst h
      have hg' : v0 = v := by simpa [pyGet] using hg
      simp [pySet, hg']
    · simp only [pyMem, if_neg h] at hm
      simp only [pyGet, if_neg h] at hg
      simp [pySet, h, ih hm hg]

theorem pyMem_of_mem (e : Entity) (k : String) (v : Value) (h : (k, v) ∈ e) :
    pyMem e k = true := by
  induction e with
  | nil => simp at h
  | cons kv rest ih =>
    rcases kv with ⟨k0, v0⟩
    rcases List.mem_cons.mp h with h0 | h0
    · cases h0; simp [pyMem]
    · by_cases hk : k0 = k
      · simp [pyMem, hk]
      · simp [pyMem, hk, ih h0]

theorem pyGet_of_mem_nodup (e : Entity) (k : String) (v : Value)
    (hn : nodupKeys e) (h : (k, v) ∈ e) : pyGet e k = v := by
  induction e with
  | nil => simp at h
  | cons kv rest ih =>
    rcases kv with ⟨k0, v0⟩
    rcases List.mem_cons.mp h with h0 | h0
    · cases h0; simp [pyGet]
    · have hk : k0 ≠ k := by
        intro hk
        subst hk
        have : k0 ∈ keysOf rest :=
          List.mem_map.mpr ⟨(k0, v), h0, rfl⟩
        exact (List.nodup_cons.mp hn).1 this
      have hn' : nodupKeys rest := (List.nodup_cons.mp hn).2
      simp [pyGet, hk, ih hn' h0]

theorem pyMem_of_get_ne_null (e : Entity) (k : String) (h : pyGet e k ≠ .null) :
    pyMem e k = true := by
  induction e with
  | nil => simp [pyGet] at h
  | cons kv rest ih =>
    rcases kv with ⟨k0, v0⟩
    by_cases hk : k0 = k
    · simp [pyMem, hk]
    · simp only [pyGet, if_neg hk] at h
      simp [pyMem, hk, ih h]

/-! Fold and scan helpers. -/

theorem foldl_const {α β : Type} (f : β → α → β) (b : β) (l : List α)
    (h : ∀ x ∈ l, f b x = b) : l.foldl f b = b := by
  induction l with
  | nil => rfl
  | cons x xs ih =>
    have hx := h x (List.mem_cons_self x xs)
    simp only [List.foldl_cons, hx]
    exact ih fun y hy => h y (List.mem_cons_of_mem x hy)

theorem scanIdx_none {α : Type} (pred : α → Bool) (l : List α)
    (h : ∀ x ∈ l, pred x = false) : scanIdx pred l = none := by
  induction l with
  | nil => rfl
  | cons x xs ih =>
    have hx := h x (List.mem_cons_self x xs)
    simp only [scanIdx, hx, Bool.false_eq_true, if_false]
    rw [ih fun y hy => h y (List.mem_cons_of_mem x hy)]
    rfl

theorem scanIdx_first {α : Type} (pred : α → Bool) (A : List α) (b : α) (B : List α)
    (hA : ∀ x ∈ A, pred x = false) (hb : pred b = true) :
    scanIdx pred (A ++ b :: B) = some A.length := by
  induction A with
  | nil => simp [scanIdx, hb]
  | cons x xs ih =>
    have hx := hA x (List.mem_cons_self x xs)
    have ih' := ih fun y hy => hA y (List.mem_cons_of_mem x hy)
    simp only [List.cons_append, scanIdx, hx, Bool.false_eq_true, if_false, List.append_eq, ih',
      Option.map_some', List.length_cons]

theorem getD_append_len {α : Type} (A : List α) (b : α) (B : List α) (d : α) :
    (A ++ b :: B).getD A.length d = b := by
  induction A with
  | nil => rfl
  | cons x xs ih => simpa using ih

theorem set_append_len {α : Type} (A : List α) (b c : α) (B : List α) :
    (A ++ b :: B).set A.length c = A ++ c :: B := by
  induction A with
  | nil => rfl
  | cons x xs ih => simp [List.set, ih]

theorem scanIdx_spec {α : Type} (pred : α → Bool) (l : List α) (d : α) :
    ∀ i, scanIdx pred l = some i →
      i < l.length ∧ pred (l.getD i d) = true ∧ ∀ j, j < i → pred (l.getD j d) = false := by
  induction l with
  | nil => intro i h; simp [scanIdx] at h
  | cons x xs ih =>
    intro i h
    by_cases hx : pred x = true
    · simp only [scanIdx, hx, if_true] at h
      cases h
      exact ⟨Nat.succ_pos _, hx, fun j hj => absurd hj (Nat.not_lt_zero j)⟩
    · have hx' : pred x = false := Bool.eq_false_iff.mpr hx
      simp only [scanIdx, hx', Bool.false_eq_true, if_false] at h
      rcases Option.map_eq_some'.mp h with ⟨i', hi', rfl⟩
      rcases ih i' hi' with ⟨hlt, hp, hall⟩
      refine ⟨Nat.succ_lt_succ hlt, hp, ?_⟩
      intro j hj
      cases j with
      | zero => exact hx'
      | succ j' => exact hall j' (Nat.lt_of_succ_lt_succ hj)

theorem scanIdx_unique {α : Type} (pred : α → Bool) (d : α) (p : α) :
    ∀ (L : List α), p ∈ L → pred p = true → (∀ x ∈ L, pred x = true → x = p) →
      ∃ i, scanIdx pred L = some i ∧ L.getD i d = p ∧ L.set i p = L := by
  intro L
  induction L with
  | nil => intro h; simp at h
  | cons x xs ih =>
    intro hmem hp huniq
    by_cases hx : pred x = true
    · have hxp : x = p := huniq x (List.mem_cons_self x xs) hx
      refine ⟨0, ?_, ?_, ?_⟩
      · simp [scanIdx, hx]
      · simp [hxp]
      · simp [List.set, hxp]
    · have hx' : pred x = false := Bool.eq_false_iff.mpr hx
      have hxp : x ≠ p := fun h => hx (h ▸ hp)
      have hmem' : p ∈ xs := by
        rcases List.mem_cons.mp hmem with h | h
        · exact absurd h.symm hxp
        · exact h
      rcases ih hmem' hp (fun y hy => huniq y (List.mem_cons_of_mem x hy)) with
        ⟨i, hscan, hget, hset⟩
      refine ⟨i + 1, ?_, ?_, ?_⟩
      · simp only [scanIdx, hx', Bool.false_eq_true, if_false, hscan]; rfl
      · simpa using hget
      · simp [List.set, hset]

/-! Code-point string order: reflexivity, transitivity, antisymmetry. -/

theorem charsLe_refl (u : List Char) : charsLe u u = true := by
  induction u with
  | nil => rfl
  | cons a u' ih => simp [charsLe, ih]

theorem charsLe_trans (u : List Char) :
    ∀ v w, charsLe u v = true → charsLe v w = true → charsLe u w = true := by
  induction u with
  | nil => intro v w _ _; rfl
  | cons a u' ih =>
    intro v w h1 h2
    cases v with
    | nil => simp [charsLe] at h1
    | cons b v' =>
      cases w with
      | nil => simp [charsLe] at h2
      | cons c w' =>
        by_cases hab : a.toNat < b.toNat
        · by_cases hbc : b.toNat < c.toNat
          · simp [charsLe, hab.trans hbc]
          · by_cases hcb : c.toNat < b.toNat
            · simp [charsLe, hbc, hcb] at h2
            · have hbceq : b.toNat = c.toNat :=
                Nat.le_antisymm (Nat.not_lt.mp hcb) (Nat.not_lt.mp hbc)
              simp [charsLe, hbceq ▸ hab]
        · by_cases hba : b.toNat < a.toNat
          · simp [charsLe, hab, hba] at h1
          · have habeq : a.toNat = b.toNat :=
              Nat.le_antisymm (Nat.not_lt.mp hba) (Nat.not_lt.mp hab)
            simp only [charsLe, hab, if_false, hba] at h1
            by_cases hbc : b.toNat < c.toNat
            · simp [charsLe, habeq ▸ hbc]
            · by_cases hcb : c.toNat < b.toNat
              · simp [charsLe, hbc, hcb] at h2
              · have hbceq : b.toNat = c.toNat :=
                  Nat.le_antisymm (Nat.not_lt.mp hcb) (Nat.not_lt.mp hbc)
                have hac : ¬ a.toNat < c.toNat := by omega
                have hca : ¬ c.toNat < a.toNat := by omega
                simp only [charsLe, hbc, if_false, hcb] at h2
                simp only [charsLe, hac, if_false, hca]
                exact ih v' w' h1 h2

theorem charsLe_antisymm (u : List Char) :
    ∀ v, charsLe u v = true → charsLe v u = true → u = v := by
  induction u with
  | nil =>
    intro v _ h2
    cases v with
    | nil => rfl
    | cons b v' => simp [charsLe] at h2
  | cons a u' ih =>
    intro v h1 h2
    cases v with
    | nil => simp [charsLe] at h1
    | cons b v' =>
      by_cases hab : a.toNat < b.toNat
      · have hba : ¬ b.toNat < a.toNat := by omega
        simp [charsLe, hba, hab] at h2
      · by_cases hba : b.toNat < a.toNat
        · simp [charsLe, hab, hba] at h1
        · have heq : a.toNat = b.toNat :=
            Nat.le_antisymm (Nat.not_lt.mp hba) (Nat.not_lt.mp hab)
          have hc : a = b := Char.eq_of_val_eq (UInt32.toNat.inj heq)
          simp only [charsLe, hab, if_false, hba] at h1
          simp only [charsLe, hba, if_false, hab] at h2
          rw [hc, ih v' h1 h2]

theorem strLeB_trans {a b c : String} (h1 : strLeB a b = true) (h2 : strLeB b c = true) :
    strLeB a c = true :=
  charsLe_trans a.data b.data c.data h1 h2

theorem and_true_split {a b : Bool} (h : (a && b) = true) : a = true ∧ b = true := by
  cases a <;> cases b <;> simp_all

theorem strLeB_antisymm {a b : String} (h1 : strLeB a b = true) (h2 : strLeB b a = true) :
    a = b := by
  cases a with
  | mk d1 =>
    cases b with
    | mk d2 => exact congrArg String.mk (charsLe_antisymm d1 d2 h1 h2)

theorem strLtB_le {a b : String} (h : strLtB a b = true) : strLeB a b = true :=
  (and_true_split h).1

theorem strLtB_ne {a b : String} (h : strLtB a b = true) : a ≠ b := by
  have h2 := (and_true_split h).2
  intro he
  simp [he] at h2

theorem strLtB_trans {a b c : String} (h1 : strLtB a b = true) (h2 : strLtB b c = true) :
    strLtB a c = true := by
  have hle : strLeB a c = true := strLeB_trans (strLtB_le h1) (strLtB_le h2)
  have hne : a ≠ c := by
    intro he
    subst he
    exact strLtB_ne h1 (strLeB_antisymm (strLtB_le h1) (strLtB_le h2))
  simp [strLtB, hle, hne]

theorem strict_pairwise (ss : List String) (h : strictSortedStr ss = true) :
    ss.Pairwise fun a b => strLtB a b = true := by
  induction ss with
  | nil => exact List.Pairwise.nil
  | cons a t ih =>
    cases t with
    | nil => simp
    | cons b r =>
      have hab : strLtB a b = true := (and_true_split h).1
      have ht : strictSortedStr (b :: r) = true := (and_true_split h).2
      have hp := ih ht
      refine List.pairwise_cons.mpr ⟨?_, hp⟩
      intro x hx
      rcases List.mem_cons.mp hx with h0 | h0
      · exact h0 ▸ hab
      · exact strLtB_trans hab ((List.pairwise_cons.mp hp).1 x h0)

theorem strict_sorted (ss : List String) (h : strictSortedStr ss = true) :
    List.Sorted strLe ss :=
  (strict_pairwise ss h).imp fun hx => strLtB_le hx

theorem strict_nodup (ss : List String) (h : strictSortedStr ss = true) :
    ss.Nodup :=
  (strict_pairwise ss h).imp fun hx => strLtB_ne hx

/-! First-occurrence dedup (plain element version). -/

theorem dedup_nil_of_sub {α : Type} [DecidableEq α] (s : List α) (l : List α)
    (h : ∀ x ∈ l, x ∈ s) : dedupGo s l = [] := by
  induction l with
  | nil => rfl
  | cons a t ih =>
    have ha := h a (List.mem_cons_self a t)
    simp only [dedupGo, if_pos ha]
    exact ih fun x hx => h x (List.mem_cons_of_mem a hx)

theorem dedup_self {α : Type} [DecidableEq α] (l : List α) :
    ∀ s, l.Nodup → (∀ x ∈ l, x ∉ s) → dedupGo s l = l := by
  induction l with
  | nil => intro s _ _; rfl
  | cons a t ih =>
    intro s hn hs
    have ha : a ∉ s := hs a (List.mem_cons_self a t)
    simp only [dedupGo, if_neg ha]
    congr 1
    refine ih (a :: s) (List.nodup_cons.mp hn).2 ?_
    intro x hx
    simp only [List.mem_cons]
    push_neg
    exact ⟨fun he => (List.nodup_cons.mp hn).1 (he ▸ hx), hs x (List.mem_cons_of_mem a hx)⟩

theorem dedup_congr {α : Type} [DecidableEq α] (l : List α) :
    ∀ s1 s2, (∀ x ∈ l, (x ∈ s1 ↔ x ∈ s2)) → dedupGo s1 l = dedupGo s2 l := by
  induction l with
  | nil => intro s1 s2 _; rfl
  | cons a t ih =>
    intro s1 s2 h
    have ha := h a (List.mem_cons_self a t)
    by_cases h1 : a ∈ s1
    · simp only [dedupGo, if_pos h1, if_pos (ha.mp h1)]
      exact ih s1 s2 fun x hx => h x (List.mem_cons_of_mem a hx)
    · have h2 : a ∉ s2 := fun hz => h1 (ha.mpr hz)
      simp only [dedupGo, if_neg h1, if_neg h2]
      congr 1
      refine ih (a :: s1) (a :: s2) ?_
      intro x hx
      simp only [List.mem_cons]
      constructor
      · rintro (rfl | hy)
        · exact Or.inl rfl
        · exact Or.inr ((h x (List.mem_cons_of_mem a hx)).mp hy)
      · rintro (rfl | hy)
        · exact Or.inl rfl
        · exact Or.inr ((h x (List.mem_cons_of_mem a hx)).mpr hy)

theorem dedup_append {α : Type} [DecidableEq α] (l1 : List α) :
    ∀ s l2, dedupGo s (l1 ++ l2) = dedupGo s l1 ++ dedupGo (l1 ++ s) l2 := by
  induction l1 with
  | nil => intro s l2; simp [dedupGo]
  | cons a t ih =>
    intro s l2
    by_cases h1 : a ∈ s
    · simp only [List.cons_append, dedupGo, if_pos h1, List.append_eq]
      rw [ih s l2]
      congr 1
      refine dedup_congr l2 (t ++ s) (a :: t ++ s) ?_
      intro x _
      simp only [List.cons_append, List.mem_cons, List.mem_append]
      constructor
      · intro hy; tauto
      · rintro (rfl | hy)
        · exact Or.inr h1
        · exact hy
    · simp only [List.cons_append, dedupGo, if_neg h1, List.append_eq]
      rw [ih (a :: s) l2]
      simp only [List.cons_append, List.cons.injEq, true_and]
      congr 1
      refine dedup_congr l2 (t ++ a :: s) (a :: t ++ s) ?_
      intro x _
      simp only [List.cons_append, List.mem_cons, List.mem_append]
      tauto

theorem dedup_append_self {α : Type} [DecidableEq α] (ss : List α) (h : ss.Nodup) :
    dedupGo [] (ss ++ ss) = ss := by
  rw [dedup_append ss [] ss, dedup_self ss [] h (by simp),
    dedup_nil_of_sub (ss ++ []) ss (by simp), List.append_nil]

/-! Self-merge: a merge-canonical record merged with itself is unchanged. -/

theorem jaccard_self (s : String) : jaccard s s = 1 := by
  unfold jaccard
  by_cases h : pyTokens s = []
  · simp [h]
  · have hfilter : (pyTokens s).filter (fun t => t ∈ pyTokens s) = pyTokens s :=
      List.filter_eq_self.mpr fun a ha => by simpa using ha
    have hfilter2 : (pyTokens s).filter (fun t => ¬ t ∈ pyTokens s) = [] :=
      List.filter_eq_nil_iff.mpr (by simp)
    have hlen : 0 < (pyTokens s).length := List.length_pos.mpr h
    simp only [h, and_self, if_false, false_and, or_self, false_or, hfilter, hfilter2,
      List.append_nil, if_neg h]
    rw [Nat.max_eq_right hlen, Rat.mkRat_eq_div]
    exact div_self (by exact_mod_cast Nat.pos_iff_ne_zero.mp hlen)

theorem pyMax_self (q : ℚ) : pyMax q q = q := by
  simp [pyMax]

theorem pyMax_one_le {x : ℚ} (hx : x ≤ 1) : pyMax x 1 = 1 := by
  unfold pyMax
  rcases lt_or_eq_of_le hx with h | h
  · simp [h]
  · simp [h]

theorem simScore_self (simFields : List String) (p : Entity) (hne : simFields ≠ []) :
    simScore simFields p p = 1 := by
  have step : ∀ (fields : List String),
      fields.foldl
        (fun sim tf =>
          pyMax sim (jaccard (pyStr (pyGetD p tf (.str ""))) (pyStr (pyGetD p tf (.str ""))))) 1 =
        1 := by
    intro fields
    induction fields with
    | nil => rfl
    | cons tf rest ih => simpa [jaccard_self, pyMax_self] using ih
  cases simFields with
  | nil => exact absurd rfl hne
  | cons tf rest =>
    unfold simScore
    rw [List.foldl_cons, jaccard_self (pyStr (pyGetD p tf (.str ""))),
      pyMax_one_le (show (0 : ℚ) ≤ 1 by norm_num)]
    exact step rest

theorem entMatch_self (keys simFields : List String) (thr : ℚ) (p : Entity)
    (hne : simFields ≠ []) (hthr : thr ≤ 1) :
    entMatchB keys simFields thr p p = true := by
  unfold entMatchB
  have h1 : simFields.isEmpty = false := by
    cases simFields with
    | nil => exact absurd rfl hne
    | cons a t => rfl
  rw [simScore_self simFields p hne]
  simp [h1, hthr]

theorem eventMatch_self (p : Entity) : eventMatchB p p = true := by
  unfold eventMatchB eventSim
  rw [jaccard_self, jaccard_self, pyMax_self]
  simp
  decide

theorem asStrList_shape (l : List Value) :
    ∀ ss, asStrList l = some ss → l = ss.map Value.str := by
  induction l with
  | nil => intro ss h; simp [asStrList] at h; simp [← h]
  | cons v t ih =>
    intro ss h
    cases v with
    | str s =>
      simp only [asStrList, Option.map_eq_some'] at h
      rcases h with ⟨ss', hss', rfl⟩
      simp [ih ss' hss']
    | null => simp [asStrList] at h
    | num q => simp [asStrList] at h
    | list l2 => simp [asStrList] at h

theorem mergeAliases_self (l : List Value) (h : aliasCanonB (.list l) = true) :
    mergeAliases l l = l := by
  cases l with
  | nil => rfl
  | cons v t =>
    have hsplit : ∃ ss, asStrList (v :: t) = some ss ∧ strictSortedStr ss = true := by
      rcases hms : asStrList (v :: t) with _ | ss
      · simp [aliasCanonB, hms] at h
      · exact ⟨ss, rfl, by simpa [aliasCanonB, hms] using h⟩
    rcases hsplit with ⟨ss, hss, hsorted⟩
    have hshape := asStrList_shape (v :: t) ss hss
    unfold mergeAliases
    rw [hshape]
    have hmap : (ss.map Value.str).map pyStr = ss := by
      rw [List.map_map]
      exact List.map_id'' (fun s => rfl) ss
    rw [hmap, dedup_append_self ss (strict_nodup ss hsorted),
      (strict_sorted ss hsorted).insertionSort_eq]

theorem mergeField_self (p : Entity) (hcanon : canonEnt p) (k : String) (v : Value)
    (hmem : (k, v) ∈ p) : mergeField p p (k, v) = p := by
  rcases hcanon with ⟨hnodup, halias, hconf⟩
  have hget : pyGet p k = v := pyGet_of_mem_nodup p k v hnodup hmem
  have hm : pyMem p k = true := pyMem_of_mem p k v hmem
  have hset : pySet p k v = p := pySet_self_of_get p k v hm hget
  unfold mergeField
  simp only [hget]
  by_cases hemp : emptyLike v = true
  · simp [hemp, hset]
  · have hemp' : emptyLike v = false := Bool.eq_false_iff.mpr hemp
    simp only [hemp', Bool.false_eq_true, if_false]
    by_cases hk1 : k = "aliases"
    · subst hk1
      cases v with
      | list x =>
        have hma := mergeAliases_self x (hget ▸ halias)
        simp [hma, hset]
      | null => simp [emptyLike] at hemp'
      | num q => simp
      | str s => simp
    · by_cases hk2 : k = "confidence"
      · subst hk2
        have hv : ∃ q, v = .num q := by
          rw [hget] at hconf
          cases v with
          | num q => exact ⟨q, rfl⟩
          | null => simp [emptyLike] at hemp'
          | str s =>
            simp only [confCanonB, Bool.or_eq_true] at hconf
            rcases hconf with hc | hc
            · rw [hc] at hemp'; simp at hemp'
            · simp at hc
          | list l2 =>
            simp only [confCanonB, Bool.or_eq_true] at hconf
            rcases hconf with hc | hc
            · rw [hc] at hemp'; simp at hemp'
            · simp at hc
        rcases hv with ⟨q, rfl⟩
        by_cases hq : q = 0
        · subst hq
          have h1 : orZero (.num 0) = .num 0 := by simp [orZero, truthy]
          simp [h1, pyFloat, pyMax_self, hset]
        · have ht : truthy (.num q) = true := by simp [truthy, hq]
          have h1 : orZero (.num q) = .num q := by simp [orZero, ht]
          simp [h1, pyFloat, pyMax_self, hset]
      · by_cases hk3 : k = "first_appearance"
        · subst hk3
          rcases hr : spanRankE v with _ | r
          · simp [hk2, hr]
          · simp [hk2, hr, hset]
        · simp [hk1, hk2, hk3]

theorem merge_two_self (p : Entity) (hcanon : canonEnt p) :
    merge_two_entity p p = p := by
  unfold merge_two_entity
  refine foldl_const (mergeField p) p p ?_
  intro kv hkv
  rcases kv with ⟨k, v⟩
  exact mergeField_self p hcanon k v hkv

theorem backfill_self (p : Entity) : backfill p p = p := by
  unfold backfill
  refine foldl_const _ p backfillFields ?_
  intro k _
  have h : (!truthy (pyGet p k) && truthy (pyGet p k)) = false := by
    cases truthy (pyGet p k) <;> rfl
  simp [h]

theorem eventOrderMerge_self (p : Entity) (horder : intOrderB p = true) :
    eventOrderMerge p p p = p := by
  have hv : ∃ q, pyGet p "order" = .num q ∧ q.den = 1 := by
    unfold intOrderB at horder
    rcases hg : pyGet p "order" with _ | q | s | l
    · rw [hg] at horder; simp at horder
    · exact ⟨q, rfl, by rw [hg] at horder; simpa using horder⟩
    · rw [hg] at horder; simp at horder
    · rw [hg] at horder; simp at horder
  rcases hv with ⟨q, hg, hden⟩
  have hm : pyMem p "order" = true := pyMem_of_get_ne_null p "order" (by simp [hg])
  have hgd : pyGetD p "order" (.num 1000000000) = .num q := by
    unfold pyGetD
    simp [hm, hg]
  have hnum : ((q.num : ℚ)) = q := by
    rw [← Rat.num_div_den q, hden]
    simp
  unfold eventOrderMerge
  rw [hgd]
  simp only [pyInt, hden, Nat.cast_one, Int.tdiv_one, min_self, Rat.mkRat_one, hnum]
  exact pySet_self_of_get p "order" (.num q) hm hg

theorem eventMergeRecord_self (p : Entity) (hcanon : canonEvent p) :
    eventMergeRecord p p = p := by
  unfold eventMergeRecord
  rw [merge_two_self p hcanon.1, backfill_self p, eventOrderMerge_self p hcanon.2]

/-! Append characterisation: when nothing matches, a fold is a plain append. -/

theorem mergeEnts_append (keys simf : List String) (thr : ℚ) (P : List Entity) :
    ∀ prev, (∀ ex ∈ prev, ∀ p ∈ P, entMatchB keys simf thr ex p = false) →
      (P.Pairwise fun p q =>
        entMatchB keys simf thr p q = false ∧ entMatchB keys simf thr q p = false) →
      merge_entities_by_key prev P keys simf thr = prev ++ P := by
  induction P with
  | nil => intro prev _ _; simp [merge_entities_by_key]
  | cons p P' ih =>
    intro prev hprev hpair
    unfold merge_entities_by_key
    rw [List.foldl_cons]
    have hstep : mergeStep keys simf thr prev p = prev ++ [p] := by
      unfold mergeStep
      rw [scanIdx_none _ prev fun ex hex => hprev ex hex p (List.mem_cons_self p P')]
    rw [hstep]
    have hres := ih (prev ++ [p]) ?_ (List.Pairwise.of_cons hpair)
    · unfold merge_entities_by_key at hres
      rw [hres, List.append_assoc]
      rfl
    · intro ex hex q hq
      rcases List.mem_append.mp hex with h | h
      · exact hprev ex h q (List.mem_cons_of_mem p hq)
      · have : ex = p := by simpa using h
        subst this
        exact ((List.pairwise_cons.mp hpair).1 q hq).1

theorem mergeEvents_unsorted_append (P : List Entity) :
    ∀ prev, (∀ ex ∈ prev, ∀ p ∈ P, eventMatchB ex p = false) →
      (P.Pairwise fun p q => eventMatchB p q = false ∧ eventMatchB q p = false) →
      merge_events_unsorted prev P = prev ++ P := by
  induction P with
  | nil => intro prev _ _; simp [merge_events_unsorted]
  | cons p P' ih =>
    intro prev hprev hpair
    unfold merge_events_unsorted
    rw [List.foldl_cons]
    have hstep : eventStep prev p = prev ++ [p] := by
      unfold eventStep
      rw [scanIdx_none _ prev fun ex hex => hprev ex hex p (List.mem_cons_self p P')]
    rw [hstep]
    have hres := ih (prev ++ [p]) ?_ (List.Pairwise.of_cons hpair)
    · unfold merge_events_unsorted at hres
      rw [hres, List.append_assoc]
      rfl
    · intro ex hex q hq
      rcases List.mem_append.mp hex with h | h
      · exact hprev ex h q (List.mem_cons_of_mem p hq)
      · have : ex = p := by simpa using h
        subst this
        exact ((List.pairwise_cons.mp hpair).1 q hq).1

/-! Refold: folding the same non-matching canonical records a second time is
the identity. -/

theorem mergeEnts_refold_aux (keys simf : List String) (thr : ℚ)
    (hsimf : simf ≠ []) (hthr : thr ≤ 1) (prev : List Entity) :
    ∀ (B A : List Entity),
      (∀ ex ∈ prev, ∀ p ∈ B, entMatchB keys simf thr ex p = false) →
      (∀ a ∈ A, ∀ p ∈ B, entMatchB keys simf thr a p = false) →
      (B.Pairwise fun p q =>
        entMatchB keys simf thr p q = false ∧ entMatchB keys simf thr q p = false) →
      (∀ p ∈ B, canonEnt p) →
      List.foldl (mergeStep keys simf thr) (prev ++ A ++ B) B = prev ++ A ++ B := by
  intro B
  induction B with
  | nil => intro A _ _ _ _; rfl
  | cons p B' ih =>
    intro A hprev hA hpair hcanon
    rw [List.foldl_cons]
    have hmemp : p ∈ p :: B' := List.mem_cons_self p B'
    have hstep : mergeStep keys simf thr (prev ++ A ++ (p :: B')) p = prev ++ A ++ (p :: B') := by
      unfold mergeStep
      have hscan :
          scanIdx (fun ex => entMatchB keys simf thr ex p) (prev ++ A ++ (p :: B')) =
            some (prev ++ A).length := by
        rw [List.append_assoc, ← List.append_assoc]
        exact scanIdx_first _ (prev ++ A) p B'
          (fun x hx => by
            rcases List.mem_append.mp hx with h | h
            · exact hprev x h p hmemp
            · exact hA x h p hmemp)
          (entMatch_self keys simf thr p hsimf hthr)
      rw [hscan]
      show (prev ++ A ++ p :: B').set (prev ++ A).length
          (merge_two_entity ((prev ++ A ++ p :: B').getD (prev ++ A).length []) p) =
        prev ++ A ++ p :: B'
      rw [getD_append_len, merge_two_self p (hcanon p hmemp), set_append_len]
    rw [hstep]
    have hre : prev ++ A ++ (p :: B') = prev ++ (A ++ [p]) ++ B' := by
      simp [List.append_assoc]
    rw [hre]
    refine ih (A ++ [p]) ?_ ?_ (List.Pairwise.of_cons hpair) ?_
    · intro ex hex q hq
      exact hprev ex hex q (List.mem_cons_of_mem p hq)
    · intro a ha q hq
      rcases List.mem_append.mp ha with h | h
      · exact hA a h q (List.mem_cons_of_mem p hq)
      · have : a = p := by simpa using h
        subst this
        exact ((List.pairwise_cons.mp hpair).1 q hq).1
    · intro q hq
      exact hcanon q (List.mem_cons_of_mem p hq)

theorem mergeEnts_refold (keys simf : List String) (thr : ℚ)
    (hsimf : simf ≠ []) (hthr : thr ≤ 1) (prev P : List Entity)
    (hprev : ∀ ex ∈ prev, ∀ p ∈ P, entMatchB keys simf thr ex p = false)
    (hpair : P.Pairwise fun p q =>
      entMatchB keys simf thr p q = false ∧ entMatchB keys simf thr q p = false)
    (hcanon : ∀ p ∈ P, canonEnt p) :
    merge_entities_by_key (prev ++ P) P keys simf thr = prev ++ P := by
  have := mergeEnts_refold_aux keys simf thr hsimf hthr prev P [] hprev
    (by intro a ha; simp at ha) hpair hcanon
  simpa [merge_entities_by_key] using this

theorem mergeEvents_refold (prev P : List Entity)
    (hprev : ∀ ex ∈ prev, ∀ p ∈ P, eventMatchB ex p = false)
    (hpair : PairSep eventMatchB P)
    (hcanon : ∀ p ∈ P, canonEvent p) :
    merge_events (merge_events prev P) P = merge_events prev P := by
  have hU : merge_events_unsorted prev P = prev ++ P :=
    mergeEvents_unsorted_append P prev hprev hpair
  have hL : merge_events prev P = List.insertionSort eventLe (prev ++ P) := by
    unfold merge_events
    rw [hU]
  have hsym : Symmetric fun p q : Entity => eventMatchB p q = false ∧ eventMatchB q p = false :=
    fun _ _ h => ⟨h.2, h.1⟩
  set L := List.insertionSort eventLe (prev ++ P) with hLdef
  have hmemL : ∀ x, x ∈ L ↔ x ∈ prev ++ P := fun x => List.mem_insertionSort eventLe
  have hfix : merge_events_unsorted L P = L := by
    unfold merge_events_unsorted
    refine foldl_const eventStep L P ?_
    intro p hp
    have huniq : ∀ x ∈ L, eventMatchB x p = true → x = p := by
      intro x hx hmatch
      rcases List.mem_append.mp ((hmemL x).mp hx) with h | h
      · exact absurd hmatch (by simp [hprev x h p hp])
      · by_cases hxp : x = p
        · exact hxp
        · have := (hpair.forall hsym) h hp hxp
          exact absurd hmatch (by simp [this.1])
    have hpL : p ∈ L := (hmemL p).mpr (List.mem_append.mpr (Or.inr hp))
    rcases scanIdx_unique (fun ex => eventMatchB ex p) [] p L hpL (eventMatch_self p) huniq with
      ⟨i, hscan, hget, hset⟩
    unfold eventStep
    rw [hscan]
    show L.set i (eventMergeRecord (L.getD i []) p) = L
    rw [hget, eventMergeRecord_self p (hcanon p hp), hset]
  have hsorted : List.Sorted eventLe L := List.sorted_insertionSort eventLe (prev ++ P)
  calc merge_events (merge_events prev P) P
      = List.insertionSort eventLe (merge_events_unsorted L P) := by rw [hL]; rfl
    _ = List.insertionSort eventLe L := by rw [hfix]
    _ = L := hsorted.insertionSort_eq
    _ = merge_events prev P := hL.symm

/-! Keyed first-occurrence dedup: structural lemmas. -/

theorem dedupK_congr {κ : Type} [DecidableEq κ] (key : Entity → κ) (l : List Entity) :
    ∀ s1 s2, (∀ r ∈ l, (key r ∈ s1 ↔ key r ∈ s2)) →
      dedupKeyGo key s1 l = dedupKeyGo key s2 l := by
  induction l with
  | nil => intro s1 s2 _; rfl
  | cons r t ih =>
    intro s1 s2 h
    have hr := h r (List.mem_cons_self r t)
    by_cases h1 : key r ∈ s1
    · simp only [dedupKeyGo, if_pos h1, if_pos (hr.mp h1)]
      exact ih s1 s2 fun x hx => h x (List.mem_cons_of_mem r hx)
    · have h2 : key r ∉ s2 := fun hz => h1 (hr.mpr hz)
      simp only [dedupKeyGo, if_neg h1, if_neg h2]
      congr 1
      refine ih (key r :: s1) (key r :: s2) ?_
      intro x hx
      simp only [List.mem_cons]
      constructor
      · rintro (hy | hy)
        · exact Or.inl hy
        · exact Or.inr ((h x (List.mem_cons_of_mem r hx)).mp hy)
      · rintro (hy | hy)
        · exact Or.inl hy
        · exact Or.inr ((h x (List.mem_cons_of_mem r hx)).mpr hy)

theorem dedupK_append {κ : Type} [DecidableEq κ] (key : Entity → κ) (l1 : List Entity) :
    ∀ s l2, dedupKeyGo key s (l1 ++ l2) =
      dedupKeyGo key s l1 ++ dedupKeyGo key (l1.map key ++ s) l2 := by
  induction l1 with
  | nil => intro s l2; simp [dedupKeyGo]
  | cons r t ih =>
    intro s l2
    by_cases h1 : key r ∈ s
    · simp only [List.cons_append, dedupKeyGo, if_pos h1, List.append_eq, List.map_cons]
      rw [ih s l2]
      congr 1
      refine dedupK_congr key l2 (t.map key ++ s) (key r :: t.map key ++ s) ?_
      intro x _
      simp only [List.cons_append, List.mem_cons, List.mem_append]
      constructor
      · intro hy; tauto
      · rintro (he | hy)
        · exact Or.inr (he ▸ h1)
        · exact hy
    · simp only [List.cons_append, dedupKeyGo, if_neg h1, List.append_eq, List.map_cons]
      rw [ih (key r :: s) l2]
      simp only [List.cons_append, List.cons.injEq, true_and]
      congr 1
      refine dedupK_congr key l2 (t.map key ++ key r :: s) (key r :: t.map key ++ s) ?_
      intro x _
      simp only [List.cons_append, List.mem_cons, List.mem_append]
      tauto

theorem dedupK_nil_of_sub {κ : Type} [DecidableEq κ] (key : Entity → κ) (l : List Entity) :
    ∀ s, (∀ r ∈ l, key r ∈ s) → dedupKeyGo key s l = [] := by
  induction l with
  | nil => intro s _; rfl
  | cons r t ih =>
    intro s h
    simp only [dedupKeyGo, if_pos (h r (List.mem_cons_self r t))]
    exact ih s fun x hx => h x (List.mem_cons_of_mem r hx)

theorem dedupK_self {κ : Type} [DecidableEq κ] (key : Entity → κ) (l : List Entity) :
    ∀ s, (l.map key).Nodup → (∀ r ∈ l, key r ∉ s) → dedupKeyGo key s l = l := by
  induction l with
  | nil => intro s _ _; rfl
  | cons r t ih =>
    intro s hn hs
    simp only [dedupKeyGo, if_neg (hs r (List.mem_cons_self r t))]
    congr 1
    simp only [List.map_cons, List.nodup_cons] at hn
    refine ih (key r :: s) hn.2 ?_
    intro x hx
    simp only [List.mem_cons]
    push_neg
    refine ⟨fun he => hn.1 ?_, hs x (List.mem_cons_of_mem r hx)⟩
    exact he ▸ List.mem_map.mpr ⟨x, hx, rfl⟩

theorem dedupK_keys_mem {κ : Type} [DecidableEq κ] (key : Entity → κ) (l : List Entity) :
    ∀ s k, (k ∈ (dedupKeyGo key s l).map key) ↔ (k ∈ l.map key ∧ k ∉ s) := by
  induction l with
  | nil => intro s k; simp [dedupKeyGo]
  | cons r t ih =>
    intro s k
    by_cases h1 : key r ∈ s
    · simp only [dedupKeyGo, if_pos h1, ih s k, List.map_cons, List.mem_cons]
      constructor
      · rintro ⟨hmem, hns⟩; exact ⟨Or.inr hmem, hns⟩
      · rintro ⟨(he | hmem), hns⟩
        · exact absurd (he ▸ h1) hns
        · exact ⟨hmem, hns⟩
    · simp only [dedupKeyGo, if_neg h1, List.map_cons, List.mem_cons, ih (key r :: s) k]
      constructor
      · rintro (he | ⟨hmem, hns⟩)
        · exact ⟨Or.inl he, he ▸ h1⟩
        · exact ⟨Or.inr hmem, fun hz => hns (Or.inr hz)⟩
      · rintro ⟨(he | hmem), hns⟩
        · exact Or.inl he
        · by_cases he2 : k = key r
          · exact Or.inl he2
          · exact Or.inr ⟨hmem, fun hz => hz.elim he2 hns⟩

theorem dedupK_keys_nodup {κ : Type} [DecidableEq κ] (key : Entity → κ) (l : List Entity) :
    ∀ s, ((dedupKeyGo key s l).map key).Nodup := by
  induction l with
  | nil => intro s; simp [dedupKeyGo]
  | cons r t ih =>
    intro s
    by_cases h1 : key r ∈ s
    · simp only [dedupKeyGo, if_pos h1]
      exact ih s
    · simp only [dedupKeyGo, if_neg h1, List.map_cons, List.nodup_cons]
      refine ⟨?_, ih (key r :: s)⟩
      intro hmem
      exact ((dedupK_keys_mem key t (key r :: s) (key r)).mp hmem).2 (List.mem_cons_self _ _)

theorem dedupK_absorb {κ : Type} [DecidableEq κ] (key : Entity → κ) (a b : List Entity) :
    dedupKeyGo key [] (dedupKeyGo key [] (a ++ b) ++ b) = dedupKeyGo key [] (a ++ b) := by
  set D := dedupKeyGo key [] (a ++ b) with hD
  rw [dedupK_append key D [] b]
  have h1 : dedupKeyGo key [] D = D := by
    refine dedupK_self key D [] ?_ (by simp)
    rw [hD]
    exact dedupK_keys_nodup key (a ++ b) []
  have h2 : dedupKeyGo key (D.map key ++ []) b = [] := by
    refine dedupK_nil_of_sub key b (D.map key ++ []) ?_
    intro r hr
    rw [List.append_nil, hD, dedupK_keys_mem key (a ++ b) [] (key r)]
    exact ⟨List.mem_map.mpr ⟨r, List.mem_append.mpr (Or.inr hr), rfl⟩, by simp⟩
  rw [h1, h2, List.append_nil]

theorem dedupK_swap {κ : Type} [DecidableEq κ] (key : Entity → κ) (S P1 P2 : List Entity)
    (hdisj : ∀ r1 ∈ P1, ∀ r2 ∈ P2, key r1 ≠ key r2) :
    (dedupKeyGo key [] (dedupKeyGo key [] (S ++ P1) ++ P2)).Perm
      (dedupKeyGo key [] (dedupKeyGo key [] (S ++ P2) ++ P1)) := by
  have expand : ∀ (X Y : List Entity), (∀ r1 ∈ X, ∀ r2 ∈ Y, key r1 ≠ key r2) →
      dedupKeyGo key [] (dedupKeyGo key [] (S ++ X) ++ Y) =
        dedupKeyGo key [] S ++ dedupKeyGo key (S.map key) X ++ dedupKeyGo key (S.map key) Y := by
    intro X Y hXY
    have hDX : dedupKeyGo key [] (S ++ X) =
        dedupKeyGo key [] S ++ dedupKeyGo key (S.map key) X := by
      rw [dedupK_append key S [] X]
      congr 1
      exact dedupK_congr key X (S.map key ++ []) (S.map key) (by simp)
    rw [dedupK_append key _ [] Y]
    have h1 : dedupKeyGo key [] (dedupKeyGo key [] (S ++ X)) = dedupKeyGo key [] (S ++ X) :=
      dedupK_self key _ [] (dedupK_keys_nodup key (S ++ X) []) (by simp)
    have h2 : dedupKeyGo key ((dedupKeyGo key [] (S ++ X)).map key ++ []) Y =
        dedupKeyGo key (S.map key) Y := by
      refine dedupK_congr key Y _ (S.map key) ?_
      intro r hr
      rw [List.append_nil, dedupK_keys_mem key (S ++ X) [] (key r)]
      constructor
      · rintro ⟨hmem, _⟩
        rw [List.map_append] at hmem
        rcases List.mem_append.mp hmem with h | h
        · exact h
        · rcases List.mem_map.mp h with ⟨r1, hr1, hkey⟩
          exact absurd hkey (hXY r1 hr1 r hr)
      · intro h
        refine ⟨?_, by simp⟩
        rw [List.map_append]
        exact List.mem_append.mpr (Or.inl h)
    rw [h1, h2, hDX]
  have e1 := expand P1 P2 hdisj
  have e2 := expand P2 P1 fun r2 h2 r1 h1 => (hdisj r1 h1 r2 h2).symm
  rw [e1, e2, List.append_assoc, List.append_assoc]
  exact List.Perm.append_left _ List.perm_append_comm

/-! Sort-key stability: the insertion sort preserves the relative order of
entries with equal keys, and the dedup walk keeps first occurrences. -/

theorem keyLe_refl (p : Int × Int) : keyLe p p := Or.inr ⟨rfl, le_refl _⟩

theorem eventLe_of_keys_eq {a b : Entity} {k : Int × Int}
    (ha : orderKey a = k) (hb : orderKey b = k) : eventLe a b := by
  unfold eventLe
  rw [ha, hb]
  exact keyLe_refl k

theorem orderedInsert_filter_key (k : Int × Int) (a : Entity) :
    ∀ l, (List.orderedInsert eventLe a l).filter (fun e => decide (orderKey e = k)) =
      (if orderKey a = k then [a] else []) ++
        l.filter (fun e => decide (orderKey e = k)) := by
  intro l
  induction l with
  | nil =>
    by_cases ha : orderKey a = k
    · simp [List.orderedInsert, List.filter, ha]
    · simp [List.orderedInsert, List.filter, ha]
  | cons b t ih =>
    by_cases hab : eventLe a b
    · rw [List.orderedInsert, if_pos hab]
      by_cases ha : orderKey a = k
      · simp [List.filter_cons, ha]
      · simp [List.filter_cons, ha]
    · rw [List.orderedInsert, if_neg hab]
      by_cases hb : orderKey b = k
      · have ha : ¬ orderKey a = k := by
          intro ha
          exact hab (eventLe_of_keys_eq ha hb)
        simp [List.filter_cons, ha, hb, ih]
      · by_cases ha : orderKey a = k
        · simp [List.filter_cons, ha, hb, ih]
        · simp [List.filter_cons, ha, hb, ih]

theorem insertionSort_filter_key (k : Int × Int) :
    ∀ l : List Entity,
      (List.insertionSort eventLe l).filter (fun e => decide (orderKey e = k)) =
        l.filter (fun e => decide (orderKey e = k)) := by
  intro l
  induction l with
  | nil => rfl
  | cons a t ih =>
    rw [List.insertionSort, orderedInsert_filter_key k a (List.insertionSort eventLe t), ih]
    by_cases ha : orderKey a = k
    · simp [List.filter_cons, ha]
    · simp [List.filter_cons, ha]

theorem dedupK_sublist {κ : Type} [DecidableEq κ] (key : Entity → κ) (l : List Entity) :
    ∀ s, (dedupKeyGo key s l).Sublist l := by
  induction l with
  | nil => intro s; simp [dedupKeyGo]
  | cons r t ih =>
    intro s
    by_cases h1 : key r ∈ s
    · simp only [dedupKeyGo, if_pos h1]
      exact (ih s).cons r
    · simp only [dedupKeyGo, if_neg h1]
      exact (ih (key r :: s)).cons₂ r

theorem dedupK_filter_take {κ : Type} [DecidableEq κ] (key : Entity → κ) (l : List Entity) :
    ∀ s k, (dedupKeyGo key s l).filter (fun r => decide (key r = k)) =
      if k ∈ s then [] else (l.filter (fun r => decide (key r = k))).take 1 := by
  induction l with
  | nil => intro s k; by_cases h : k ∈ s <;> simp [dedupKeyGo, h]
  | cons r t ih =>
    intro s k
    by_cases h1 : key r ∈ s
    · simp only [dedupKeyGo, if_pos h1, ih s k]
      by_cases hs : k ∈ s
      · simp [hs]
      · have hrk : ¬ key r = k := fun he => hs (he ▸ h1)
        simp [hs, List.filter_cons, hrk]
    · simp only [dedupKeyGo, if_neg h1]
      by_cases hrk : key r = k
      · subst hrk
        have hfd : (dedupKeyGo key (key r :: s) t).filter (fun r2 => decide (key r2 = key r)) =
            [] := by
          rw [ih (key r :: s) (key r)]
          simp
        simp [List.filter_cons, h1, hfd]
      · have hkr : ¬ k = key r := fun he => hrk he.symm
        have hfd := ih (key r :: s) k
        by_cases hs : k ∈ s
        · simp only [List.mem_cons, hkr, false_or, hs, if_true] at hfd
          simp [List.filter_cons, hrk, hs, hfd]
        · simp only [List.mem_cons, hkr, false_or, hs, if_false] at hfd
          simp [List.filter_cons, hrk, hs, hfd]

/-! Field locality of the reconciliation loop. -/

theorem mergeField_get_ne (a out : Entity) (k : String) (v : Value) (k' : String)
    (hne : k ≠ k') : pyGet (mergeField a out (k, v)) k' = pyGet out k' := by
  unfold mergeField
  dsimp only
  repeat' split
  all_goals first
    | rfl
    | exact pyGet_pySet_ne out k _ k' hne

theorem mergeFold_get_ne (a : Entity) (key : String) :
    ∀ (l : List (String × Value)) (out : Entity), (∀ kv ∈ l, kv.1 ≠ key) →
      pyGet (l.foldl (mergeField a) out) key = pyGet out key := by
  intro l
  induction l with
  | nil => intro out _; rfl
  | cons kv t ih =>
    intro out h
    rw [List.foldl_cons]
    rw [ih (mergeField a out kv) fun x hx => h x (List.mem_cons_of_mem kv hx)]
    rcases kv with ⟨k, v⟩
    exact mergeField_get_ne a out k v key (h (k, v) (List.mem_cons_self _ _))

theorem backfill_get_ne (m e : Entity) (key : String) (hk : ∀ k ∈ backfillFields, k ≠ key) :
    pyGet (backfill m e) key = pyGet m key := by
  unfold backfill
  generalize backfillFields = fields at hk
  induction fields generalizing m with
  | nil => rfl
  | cons k t ih =>
    rw [List.foldl_cons]
    rw [ih _ fun x hx => hk x (List.mem_cons_of_mem k hx)]
    by_cases hc : (!truthy (pyGet m k) && truthy (pyGet e k)) = true
    · simp only [hc, if_true]
      exact pyGet_pySet_ne m k _ key (hk k (List.mem_cons_self _ _))
    · simp only [Bool.eq_false_iff.mpr hc, Bool.false_eq_true, if_false]

theorem eventOrderMerge_get_ne (exRec e m : Entity) (key : String) (hk : "order" ≠ key) :
    pyGet (eventOrderMerge exRec e m) key = pyGet m key := by
  unfold eventOrderMerge
  rcases pyInt (pyGetD exRec "order" (.num 1000000000)) with _ | x
  · rfl
  · rcases pyInt (pyGetD e "order" (.num 1000000000)) with _ | y
    · rfl
    · exact pyGet_pySet_ne m "order" _ key hk

/-! The fallback brace scan returns the candidate at the earliest position
whose depth-counted snippet parses. -/

theorem scanStarts_first :
    ∀ (l : List Char) (j : Json), scanStarts l = some j →
      ∃ p, candParseAt l p = some j ∧ ∀ q, q < p → candParseAt l q = none := by
  intro l
  induction l with
  | nil => intro j h; simp [scanStarts] at h
  | cons c rest ih =>
    intro j h
    unfold scanStarts at h
    rcases hc : candParse (c :: rest) with _ | j0
    · rw [hc] at h
      rcases ih j h with ⟨p, h1, h2⟩
      refine ⟨p + 1, ?_, ?_⟩
      · simpa [candParseAt] using h1
      · intro q hq
        cases q with
        | zero => simpa [candParseAt] using hc
        | succ q' =>
          have := h2 q' (Nat.lt_of_succ_lt_succ hq)
          simpa [candParseAt] using this
    · rw [hc] at h
      cases h
      exact ⟨0, by simpa [candParseAt] using hc, fun q hq => absurd hq (Nat.not_lt_zero q)⟩

/-! Claim theorems. -/

/-- C1: merging the accumulated character list `[Alice]` with the incoming
list `[alice]` under key field `name` (threshold 0.7) yields exactly one
record named "Alice" with sorted aliases `["Al", "Ally"]`, confidence 0.9 and
description "a guide". -/
theorem claim_C1 :
    c1Merged.length = 1 ∧
    pyGet (c1Merged.getD 0 []) "name" = .str "Alice" ∧
    pyGet (c1Merged.getD 0 []) "aliases" = .list [.str "Al", .str "Ally"] ∧
    pyGet (c1Merged.getD 0 []) "confidence" = .num (mkRat 9 10) ∧
    pyGet (c1Merged.getD 0 []) "description" = .str "a guide" :=
  ⟨rfl, rfl, rfl, rfl, rfl⟩

/-- C4 counterexample: both records carry present, comparable, unequal key
fields, yet the candidate is absorbed by similarity into the first record
(one record, named "bob") — the claim predicts it would be appended (two
records) because the similarity match should not be used when key fields are
configured and comparable. -/
theorem claim_C4_cex :
    pyGet bobRec "name" = .str "bob" ∧ pyGet carolRec "name" = .str "carol" ∧
    keyMatchB ["name"] bobRec carolRec = false ∧
    (merge_entities_by_key [bobRec] [carolRec] ["name"] ["description", "role"]
      (mkRat 7 10)).length = 1 ∧
    (merge_entities_by_key [bobRec] [carolRec] ["name"] ["description", "role"]
      (mkRat 7 10)).length ≠ 2 ∧
    pyGet ((merge_entities_by_key [bobRec] [carolRec] ["name"] ["description", "role"]
      (mkRat 7 10)).getD 0 []) "name" = .str "bob" :=
  ⟨rfl, rfl, rfl, rfl, by decide, rfl⟩

/-- C4 (amended): the similarity match is used whenever the exact key match
fails — including when key fields are present and comparable but unequal —
and the first accumulated record in scan order satisfying the key-or-similarity
condition absorbs the candidate. -/
theorem claim_C4_amended :
    (∀ (keys simf : List String) (thr : ℚ) (ex cand : Entity),
      keyMatchB keys ex cand = false → simf ≠ [] → thr ≤ simScore simf ex cand →
      entMatchB keys simf thr ex cand = true) ∧
    (∀ (keys simf : List String) (thr : ℚ) (result : List Entity) (cand : Entity) (i : ℕ),
      scanIdx (fun ex => entMatchB keys simf thr ex cand) result = some i →
      entMatchB keys simf thr (result.getD i []) cand = true ∧
      (∀ j, j < i → entMatchB keys simf thr (result.getD j []) cand = false) ∧
      mergeStep keys simf thr result cand =
        result.set i (merge_two_entity (result.getD i []) cand)) := by
  constructor
  · intro keys simf thr ex cand hkey hne hthr
    unfold entMatchB
    rw [hkey]
    have h1 : simf.isEmpty = false := by
      cases simf with
      | nil => exact absurd rfl hne
      | cons a t => rfl
    simp [h1, hthr]
  · intro keys simf thr result cand i hscan
    have hspec := scanIdx_spec (fun ex => entMatchB keys simf thr ex cand) result [] i hscan
    refine ⟨hspec.2.1, hspec.2.2, ?_⟩
    unfold mergeStep
    rw [hscan]

/-- C4 witness: the amended theorem applied to the concrete pair: equal
descriptions make the similarity 1, so carol is absorbed by bob at index 0
although both names are present and differ. -/
theorem claim_C4_witness :
    keyMatchB ["name"] bobRec carolRec = false ∧
    (["description", "role"] : List String) ≠ [] ∧
    mkRat 7 10 ≤ simScore ["description", "role"] bobRec carolRec ∧
    entMatchB ["name"] ["description", "role"] (mkRat 7 10) bobRec carolRec = true ∧
    mergeStep ["name"] ["description", "role"] (mkRat 7 10) [bobRec] carolRec =
      [bobRec].set 0 (merge_two_entity ([bobRec].getD 0 []) carolRec) := by
  have h1 : keyMatchB ["name"] bobRec carolRec = false := rfl
  have h2 : (["description", "role"] : List String) ≠ [] := by decide
  have h3 : mkRat 7 10 ≤ simScore ["description", "role"] bobRec carolRec := by decide
  exact ⟨h1, h2, h3, claim_C4_amended.1 ["name"] ["description", "role"] (mkRat 7 10)
    bobRec carolRec h1 h2 h3,
    (claim_C4_amended.2 ["name"] ["description", "role"] (mkRat 7 10) [bobRec] carolRec 0
      rfl).2.2⟩

/-- C5 counterexample: the text has a syntactically valid object at position
0, but the extractor returns the later fenced object — it does not prefer the
earliest valid object. -/
theorem claim_C5_cex :
    extract_first_json exC5 = some (Json.obj [("b", Json.num 2)]) ∧
    candParseAt exC5.data 0 = some (Json.obj [("a", Json.num 1)]) ∧
    objTopKeys (Json.obj [("b", Json.num 2)]) ≠ objTopKeys (Json.obj [("a", Json.num 1)]) :=
  ⟨rfl, rfl, by decide⟩

/-- C5 (amended): a parseable fenced block is returned even when an earlier
valid object exists outside the fence; when no fenced candidate parses, the
extractor returns the parse of the depth-counted candidate at the earliest
position whose candidate parses. -/
theorem claim_C5_amended : ∀ (s : String) (j : Json),
    (fenceParse s = none → extract_first_json s = some j →
      ∃ p, candParseAt s.data p = some j ∧ ∀ q, q < p → candParseAt s.data q = none) ∧
    (fenceParse s = some j → extract_first_json s = some j) := by
  intro s j
  constructor
  · intro hf hx
    unfold extract_first_json at hx
    rw [hf] at hx
    exact scanStarts_first s.data j hx
  · intro hf
    unfold extract_first_json
    rw [hf]

/-- C5 witness: on a fence-free text with one valid object amid prose, the
extractor returns the earliest parsing candidate. -/
theorem claim_C5_witness :
    fenceParse exScanW = none ∧
    (∃ p, candParseAt exScanW.data p = some exScanWObj ∧
      ∀ q, q < p → candParseAt exScanW.data q = none) :=
  ⟨rfl, (claim_C5_amended exScanW exScanWObj).1 rfl rfl⟩

/-- C6 counterexample: the existing confidence is the non-empty unparsable
string "high"; the incoming is 0.9.  The claim predicts `max(0, 0.9) = 0.9`,
but the code keeps the existing value on a coercion failure. -/
theorem claim_C6_cex :
    emptyLike (pyGet confHigh "confidence") = false ∧
    pyGet (merge_two_entity confHigh confNine) "confidence" = .str "high" ∧
    ¬ pyGet (merge_two_entity confHigh confNine) "confidence" = .num (mkRat 9 10) :=
  ⟨rfl, rfl, fun h => by
    have h2 := congrArg pyStr h
    exact absurd h2 (by decide)⟩

/-- C6 (amended): when both records carry `confidence` and the existing value
is non-empty, the merged confidence is the numeric maximum when both values
coerce to numbers (falsy values coerced to 0); when either coercion fails the
existing value is kept unchanged; in all cases the merge is total — no error
is propagated. -/
theorem claim_C6_amended : ∀ (a b : Entity) (v : Value),
    nodupKeys b → ("confidence", v) ∈ b → emptyLike (pyGet a "confidence") = false →
    pyGet (merge_two_entity a b) "confidence" =
      (match pyFloat (orZero (pyGet a "confidence")), pyFloat (orZero v) with
       | some x, some y => .num (pyMax x y)
       | _, _ => pyGet a "confidence") := by
  intro a b v hn hmem hemp
  obtain ⟨b1, b2, rfl⟩ := List.append_of_mem hmem
  have hkeys : (b1.map Prod.fst ++ "confidence" :: b2.map Prod.fst).Nodup := by
    have : keysOf (b1 ++ ("confidence", v) :: b2) =
        b1.map Prod.fst ++ "confidence" :: b2.map Prod.fst := by
      simp [keysOf]
    exact this ▸ hn
  have hnc := List.nodup_middle.mp hkeys
  have hnotin : ¬ "confidence" ∈ b1.map Prod.fst ++ b2.map Prod.fst :=
    (List.nodup_cons.mp hnc).1
  have hb1 : ∀ kv ∈ b1, kv.1 ≠ "confidence" := by
    intro kv hkv he
    exact hnotin (List.mem_append.mpr (Or.inl (he ▸ List.mem_map.mpr ⟨kv, hkv, rfl⟩)))
  have hb2 : ∀ kv ∈ b2, kv.1 ≠ "confidence" := by
    intro kv hkv he
    exact hnotin (List.mem_append.mpr (Or.inr (he ▸ List.mem_map.mpr ⟨kv, hkv, rfl⟩)))
  unfold merge_two_entity
  rw [List.foldl_append, List.foldl_cons]
  have hout1 : pyGet (b1.foldl (mergeField a) a) "confidence" = pyGet a "confidence" :=
    mergeFold_get_ne a "confidence" b1 a hb1
  set out1 := b1.foldl (mergeField a) a with hout1def
  have hchain : mergeField a out1 ("confidence", v) =
      (match pyFloat (orZero (pyGet a "confidence")), pyFloat (orZero v) with
       | some x, some y => pySet out1 "confidence" (.num (pyMax x y))
       | _, _ => out1) := by
    unfold mergeField
    dsimp only
    rw [hout1]
    rw [if_neg (show ¬ (emptyLike (pyGet a "confidence") = true) by simp [hemp])]
    rw [if_neg (show ¬ ("confidence" = "aliases") by decide)]
    rw [if_pos rfl]
  rw [hchain]
  rcases hx : pyFloat (orZero (pyGet a "confidence")) with _ | x
  · rcases hy : pyFloat (orZero v) with _ | y
    · rw [mergeFold_get_ne a "confidence" b2 out1 hb2, hout1]
    · rw [mergeFold_get_ne a "confidence" b2 out1 hb2, hout1]
  · rcases hy : pyFloat (orZero v) with _ | y
    · rw [mergeFold_get_ne a "confidence" b2 out1 hb2, hout1]
    · rw [mergeFold_get_ne a "confidence" b2 _ hb2, pyGet_pySet_self]

/-- C6 witness: numeric confidences 0.5 and 0.9 merge to the maximum 0.9. -/
theorem claim_C6_witness :
    nodupKeys confNine ∧ ("confidence", Value.num (mkRat 9 10)) ∈ confNine ∧
    emptyLike (pyGet confHalf "confidence") = false ∧
    pyGet (merge_two_entity confHalf confNine) "confidence" =
      .num (pyMax (mkRat 1 2) (mkRat 9 10)) := by
  refine ⟨by decide, List.mem_cons_self _ _, rfl, ?_⟩
  exact claim_C6_amended confHalf confNine (Value.num (mkRat 9 10)) (by decide)
    (List.mem_cons_self _ _) rfl

/-- C7: after every fold the accumulated event sequence is sorted ascending by
`(order, span rank)`; the sort is stable (entries with equal keys keep the
relative order they had before the re-sort); and the concrete pair of events
with orders `[3, 1]` and spans `["L50", "L10"]` and no incoming events is
returned as `[(order 1, "L10"), (order 3, "L50")]`. -/
theorem claim_C7 :
    (∀ prev new, List.Sorted eventLe (merge_events prev new)) ∧
    (∀ prev new k, (merge_events prev new).filter (fun e => decide (orderKey e = k)) =
      (merge_events_unsorted prev new).filter (fun e => decide (orderKey e = k))) ∧
    merge_events [evOrder3, evOrder1] [] = [evOrder1, evOrder3] :=
  ⟨fun prev new => List.sorted_insertionSort eventLe (merge_events_unsorted prev new),
   fun prev new k => insertionSort_filter_key k (merge_events_unsorted prev new),
   rfl⟩

/-- C8: the merged relation list is a sublist of accumulated ++ incoming
(records kept unchanged, in first-occurrence order), keeps exactly the first
record of each normalized `(subject, predicate, object)` triple, and the
concrete case-and-whitespace variant pair dedups to one entry. -/
theorem claim_C8 :
    (∀ prev new : List Entity, (merge_relations prev new).Sublist (prev ++ new)) ∧
    (∀ (prev new : List Entity) (k : String × String × String),
      (merge_relations prev new).filter (fun r => decide (relKey r = k)) =
        ((prev ++ new).filter (fun r => decide (relKey r = k))).take 1) ∧
    merge_relations [relKnows] [relKnowsVar] = [relKnows] := by
  refine ⟨fun prev new => dedupK_sublist relKey (prev ++ new) [], ?_, rfl⟩
  intro prev new k
  have h := dedupK_filter_take relKey (prev ++ new) [] k
  simpa [merge_relations] using h

/-- C9 counterexample: the span "L1000000000" has an extractable marker whose
value coincides with the no-marker sentinel, so a span with no marker does not
rank strictly after it. -/
theorem claim_C9_cex :
    findLNum "L1000000000" = some 1000000000 ∧ findLNum "x" = none ∧
    parse_span_rank "L1000000000" = 1000000000 ∧ parse_span_rank "x" = 1000000000 ∧
    ¬ parse_span_rank "L1000000000" < parse_span_rank "x" :=
  ⟨rfl, rfl, rfl, rfl, by decide⟩

/-- C9 (amended): among spans with extractable markers, a smaller marker means
a strictly smaller rank; and a span without a marker ranks strictly after any
span whose marker is below the `10^9` sentinel. -/
theorem claim_C9_amended :
    (∀ (s1 s2 : String) (n1 n2 : ℕ), findLNum s1 = some n1 → findLNum s2 = some n2 →
      n1 < n2 → parse_span_rank s1 < parse_span_rank s2) ∧
    (∀ (s1 s2 : String) (n1 : ℕ), findLNum s1 = some n1 → n1 < 1000000000 →
      findLNum s2 = none → parse_span_rank s1 < parse_span_rank s2) := by
  have hrank : ∀ (s : String) (n : ℕ), findLNum s = some n → parse_span_rank s = n := by
    intro s n h
    have hs : s ≠ "" := by
      intro he
      rw [he] at h
      exact Option.noConfusion h
    unfold parse_span_rank
    rw [if_neg hs, h]
    rfl
  have hnone : ∀ s : String, findLNum s = none → parse_span_rank s = 1000000000 := by
    intro s h
    unfold parse_span_rank
    by_cases hs : s = ""
    · rw [if_pos hs]
    · rw [if_neg hs, h]
      rfl
  constructor
  · intro s1 s2 n1 n2 h1 h2 hlt
    rw [hrank s1 n1 h1, hrank s2 n2 h2]
    exact_mod_cast hlt
  · intro s1 s2 n1 h1 hlt h2
    rw [hrank s1 n1 h1, hnone s2 h2]
    exact_mod_cast hlt

/-- C9 witness: ranks of "L10" and "L50" order strictly, and the markerless
span "x" ranks strictly after "L10". -/
theorem claim_C9_witness :
    findLNum "L10" = some 10 ∧ findLNum "L50" = some 50 ∧ findLNum "x" = none ∧
    parse_span_rank "L10" < parse_span_rank "L50" ∧
    parse_span_rank "L10" < parse_span_rank "x" :=
  ⟨rfl, rfl, rfl, claim_C9_amended.1 "L10" "L50" 10 50 rfl rfl (by decide),
    claim_C9_amended.2 "L10" "x" 10 rfl (by decide) rfl⟩

/-- C10: whenever an observed record is merged into an accumulated record —
through the field reconciliation used by all three entity categories, or
through the full event merge step — a non-empty accumulated `id` survives
unchanged. -/
theorem claim_C10 : ∀ a b : Entity, emptyLike (pyGet a "id") = false →
    pyGet (merge_two_entity a b) "id" = pyGet a "id" ∧
    pyGet (eventMergeRecord a b) "id" = pyGet a "id" := by
  intro a b hemp
  have key : ∀ (l : List (String × Value)) (out : Entity),
      pyGet out "id" = pyGet a "id" → pyGet (l.foldl (mergeField a) out) "id" = pyGet a "id" := by
    intro l
    induction l with
    | nil => intro out h; exact h
    | cons kv t ih =>
      intro out h
      rw [List.foldl_cons]
      rcases kv with ⟨k, v⟩
      by_cases hk : k = "id"
      · subst hk
        have hstep : mergeField a out ("id", v) = out := by
          unfold mergeField
          dsimp only
          rw [h]
          rw [if_neg (show ¬ (emptyLike (pyGet a "id") = true) by simp [hemp])]
          rw [if_neg (show ¬ ("id" = "aliases") by decide)]
          rw [if_neg (show ¬ ("id" = "confidence") by decide)]
          rw [if_neg (show ¬ ("id" = "first_appearance") by decide)]
        rw [hstep]
        exact ih out h
      · refine ih (mergeField a out (k, v)) ?_
        rw [mergeField_get_ne a out k v "id" hk, h]
  have h1 : pyGet (merge_two_entity a b) "id" = pyGet a "id" := key b a rfl
  refine ⟨h1, ?_⟩
  unfold eventMergeRecord
  rw [eventOrderMerge_get_ne a b _ "id" (by decide),
    backfill_get_ne (merge_two_entity a b) b "id" (by decide), h1]

/-- C10 witness: a record with id "X" merged with a record carrying id "Y"
keeps id "X" in both merge paths. -/
theorem claim_C10_witness :
    emptyLike (pyGet [("id", Value.str "X")] "id") = false ∧
    pyGet (merge_two_entity [("id", Value.str "X")] [("id", Value.str "Y")]) "id" =
      pyGet [("id", Value.str "X")] "id" ∧
    pyGet (eventMergeRecord [("id", Value.str "X")] [("id", Value.str "Y")]) "id" =
      pyGet [("id", Value.str "X")] "id" := by
  have h := claim_C10 [("id", Value.str "X")] [("id", Value.str "Y")] rfl
  exact ⟨rfl, h.1, h.2⟩

/-- C2 counterexample: a partial state with one character (so no two entities
of it cross-match) whose alias list is unsorted; the first fold appends the
record as-is, the second fold merges it with itself and sorts the aliases, so
folding twice differs from folding once. -/
theorem claim_C2_cex :
    PairSep charMatchB pUnsorted.characters ∧
    ¬ merge_states (merge_states emptyState pUnsorted) pUnsorted =
        merge_states emptyState pUnsorted := by
  refine ⟨by decide, ?_⟩
  intro h
  exact absurd
    (congrArg (fun S => aliasStrings (pyGet (S.characters.getD 0 []) "aliases")) h)
    (by decide)

/-- C2 (amended): folding the same partial state twice equals folding it once,
provided — in addition to the claim's own condition that no two entities of
the partial state cross-match — every record of the partial state is in
merge-canonical form (sorted duplicate-free string aliases, numeric
confidence, integer event order) and matches no record of the accumulated
state. -/
theorem claim_C2_amended (S P : NarrativeState) (h : FreshCanonical S P) :
    merge_states (merge_states S P) P = merge_states S P := by
  obtain ⟨⟨hc1, hc2, hc3⟩, ⟨hl1, hl2, hl3⟩, ⟨hi1, hi2, hi3⟩, ⟨he1, he2, he3⟩⟩ := h
  simp only [merge_states, NarrativeState.mk.injEq]
  refine ⟨?_, ?_, ?_, ?_, ?_, ?_⟩
  · rw [mergeEnts_append ["name"] ["description", "role"] (mkRat 7 10)
      P.characters S.characters hc1 hc2]
    exact mergeEnts_refold ["name"] ["description", "role"] (mkRat 7 10)
      (by decide) (by decide) S.characters P.characters hc1 hc2 hc3
  · rw [mergeEnts_append ["name", "type"] ["description"] (mkRat 7 10)
      P.locations S.locations hl1 hl2]
    exact mergeEnts_refold ["name", "type"] ["description"] (mkRat 7 10)
      (by decide) (by decide) S.locations P.locations hl1 hl2 hl3
  · rw [mergeEnts_append ["name", "category"] ["description"] (mkRat 7 10)
      P.items S.items hi1 hi2]
    exact mergeEnts_refold ["name", "category"] ["description"] (mkRat 7 10)
      (by decide) (by decide) S.items P.items hi1 hi2 hi3
  · exact mergeEvents_refold S.events P.events he1 he2 he3
  · exact dedupK_absorb relKey S.relations P.relations
  · exact dedupK_absorb unresKey S.unresolved P.unresolved

/-- C2 witness: the amended idempotence applied to the empty accumulated state
and a canonical single-character partial state. -/
theorem claim_C2_witness :
    FreshCanonical emptyState pCanon ∧
    merge_states (merge_states emptyState pCanon) pCanon = merge_states emptyState pCanon :=
  ⟨by decide, claim_C2_amended emptyState pCanon (by decide)⟩

/-- C3 counterexample: two singleton partial states whose characters do not
match each other in either direction, folded in the two orders onto the empty
state, give the accumulated characters in different list orders — the folds
are not equal as states. -/
theorem claim_C3_cex :
    NoCross charMatchB pBob.characters pCarol.characters ∧
    NoCross charMatchB pCarol.characters pBob.characters ∧
    ¬ merge_states (merge_states emptyState pBob) pCarol =
        merge_states (merge_states emptyState pCarol) pBob := by
  refine ⟨by decide, by decide, ?_⟩
  intro h
  exact absurd (congrArg charNames h) (by decide)

theorem mergeEnts_swap (keys simf : List String) (thr : ℚ) (Sc P1c P2c : List Entity)
    (hS1 : ∀ ex ∈ Sc, ∀ p ∈ P1c, entMatchB keys simf thr ex p = false)
    (hS2 : ∀ ex ∈ Sc, ∀ p ∈ P2c, entMatchB keys simf thr ex p = false)
    (h12 : ∀ a ∈ P1c, ∀ b ∈ P2c, entMatchB keys simf thr a b = false)
    (h21 : ∀ a ∈ P2c, ∀ b ∈ P1c, entMatchB keys simf thr a b = false)
    (hp1 : P1c.Pairwise fun p q =>
      entMatchB keys simf thr p q = false ∧ entMatchB keys simf thr q p = false)
    (hp2 : P2c.Pairwise fun p q =>
      entMatchB keys simf thr p q = false ∧ entMatchB keys simf thr q p = false) :
    (merge_entities_by_key (merge_entities_by_key Sc P1c keys simf thr) P2c keys simf thr).Perm
      (merge_entities_by_key (merge_entities_by_key Sc P2c keys simf thr) P1c keys simf thr) := by
  have e1 := mergeEnts_append keys simf thr P1c Sc hS1 hp1
  have e2 : merge_entities_by_key (Sc ++ P1c) P2c keys simf thr = Sc ++ P1c ++ P2c := by
    refine mergeEnts_append keys simf thr P2c (Sc ++ P1c) ?_ hp2
    intro ex hex p hp
    rcases List.mem_append.mp hex with hs | hs
    · exact hS2 ex hs p hp
    · exact h12 ex hs p hp
  have e3 := mergeEnts_append keys simf thr P2c Sc hS2 hp2
  have e4 : merge_entities_by_key (Sc ++ P2c) P1c keys simf thr = Sc ++ P2c ++ P1c := by
    refine mergeEnts_append keys simf thr P1c (Sc ++ P2c) ?_ hp1
    intro ex hex p hp
    rcases List.mem_append.mp hex with hs | hs
    · exact hS1 ex hs p hp
    · exact h21 ex hs p hp
  rw [e1, e2, e3, e4, List.append_assoc, List.append_assoc]
  exact List.Perm.append_left Sc List.perm_append_comm

theorem mergeEvents_swap (Sev P1ev P2ev : List Entity)
    (hS1 : ∀ ex ∈ Sev, ∀ p ∈ P1ev, eventMatchB ex p = false)
    (hS2 : ∀ ex ∈ Sev, ∀ p ∈ P2ev, eventMatchB ex p = false)
    (h12 : ∀ a ∈ P1ev, ∀ b ∈ P2ev, eventMatchB a b = false)
    (h21 : ∀ a ∈ P2ev, ∀ b ∈ P1ev, eventMatchB a b = false)
    (hp1 : PairSep eventMatchB P1ev) (hp2 : PairSep eventMatchB P2ev) :
    (merge_events (merge_events Sev P1ev) P2ev).Perm
      (merge_events (merge_events Sev P2ev) P1ev) := by
  have u1 : merge_events Sev P1ev = List.insertionSort eventLe (Sev ++ P1ev) := by
    unfold merge_events
    rw [mergeEvents_unsorted_append P1ev Sev hS1 hp1]
  have u2 : merge_events Sev P2ev = List.insertionSort eventLe (Sev ++ P2ev) := by
    unfold merge_events
    rw [mergeEvents_unsorted_append P2ev Sev hS2 hp2]
  have hmem1 : ∀ ex ∈ List.insertionSort eventLe (Sev ++ P1ev), ∀ p ∈ P2ev,
      eventMatchB ex p = false := by
    intro ex hex p hp
    rcases List.mem_append.mp ((List.mem_insertionSort eventLe).mp hex) with hs | hs
    · exact hS2 ex hs p hp
    · exact h12 ex hs p hp
  have hmem2 : ∀ ex ∈ List.insertionSort eventLe (Sev ++ P2ev), ∀ p ∈ P1ev,
      eventMatchB ex p = false := by
    intro ex hex p hp
    rcases List.mem_append.mp ((List.mem_insertionSort eventLe).mp hex) with hs | hs
    · exact hS1 ex hs p hp
    · exact h21 ex hs p hp
  have l1 : merge_events (merge_events Sev P1ev) P2ev =
      List.insertionSort eventLe (List.insertionSort eventLe (Sev ++ P1ev) ++ P2ev) := by
    rw [u1]
    unfold merge_events
    rw [mergeEvents_unsorted_append P2ev _ hmem1 hp2]
  have l2 : merge_events (merge_events Sev P2ev) P1ev =
      List.insertionSort eventLe (List.insertionSort eventLe (Sev ++ P2ev) ++ P1ev) := by
    rw [u2]
    unfold merge_events
    rw [mergeEvents_unsorted_append P1ev _ hmem2 hp1]
  rw [l1, l2]
  have s1 : (List.insertionSort eventLe (List.insertionSort eventLe (Sev ++ P1ev) ++ P2ev)).Perm
      (List.insertionSort eventLe (Sev ++ P1ev) ++ P2ev) := List.perm_insertionSort eventLe _
  have s2 : (List.insertionSort eventLe (Sev ++ P1ev) ++ P2ev).Perm ((Sev ++ P1ev) ++ P2ev) :=
    (List.perm_insertionSort eventLe _).append_right P2ev
  have s3 : ((Sev ++ P1ev) ++ P2ev).Perm ((Sev ++ P2ev) ++ P1ev) := by
    rw [List.append_assoc, List.append_assoc]
    exact List.Perm.append_left Sev List.perm_append_comm
  have s4 : ((Sev ++ P2ev) ++ P1ev).Perm (List.insertionSort eventLe (Sev ++ P2ev) ++ P1ev) :=
    ((List.perm_insertionSort eventLe _).append_right P1ev).symm
  have s5 : (List.insertionSort eventLe (Sev ++ P2ev) ++ P1ev).Perm
      (List.insertionSort eventLe (List.insertionSort eventLe (Sev ++ P2ev) ++ P1ev)) :=
    (List.perm_insertionSort eventLe _).symm
  exact (((s1.trans s2).trans s3).trans s4).trans s5

/-- C3 (amended): if the two partial states match neither each other (in any
category, role or direction) nor the accumulated state, and are internally
non-matching, then folding them in either order yields the same records in
every category up to list order (the concrete list order differs by append
order, as the counterexample shows). -/
theorem claim_C3_amended (S P1 P2 : NarrativeState) (h : ChunksSeparated S P1 P2) :
    statePerm (merge_states (merge_states S P1) P2)
      (merge_states (merge_states S P2) P1) := by
  obtain ⟨⟨hcS1, hcS2, hc12, hc21, hcp1, hcp2⟩, ⟨hlS1, hlS2, hl12, hl21, hlp1, hlp2⟩,
    ⟨hiS1, hiS2, hi12, hi21, hip1, hip2⟩, ⟨heS1, heS2, he12, he21, hep1, hep2⟩,
    hrel, hunres⟩ := h
  refine ⟨?_, ?_, ?_, ?_, ?_, ?_⟩
  · exact mergeEnts_swap ["name"] ["description", "role"] (mkRat 7 10)
      S.characters P1.characters P2.characters hcS1 hcS2 hc12 hc21 hcp1 hcp2
  · exact mergeEnts_swap ["name", "type"] ["description"] (mkRat 7 10)
      S.locations P1.locations P2.locations hlS1 hlS2 hl12 hl21 hlp1 hlp2
  · exact mergeEnts_swap ["name", "category"] ["description"] (mkRat 7 10)
      S.items P1.items P2.items hiS1 hiS2 hi12 hi21 hip1 hip2
  · exact mergeEvents_swap S.events P1.events P2.events heS1 heS2 he12 he21 hep1 hep2
  · exact dedupK_swap relKey S.relations P1.relations P2.relations hrel
  · exact dedupK_swap unresKey S.unresolved P1.unresolved P2.unresolved hunres

/-- C3 witness: the amended order-independence applied to the empty state and
the two separated singleton character chunks. -/
theorem claim_C3_witness :
    ChunksSeparated emptyState pBob pCarol ∧
    statePerm (merge_states (merge_states emptyState pBob) pCarol)
      (merge_states (merge_states emptyState pCarol) pBob) :=
  ⟨by decide, claim_C3_amended emptyState pBob pCarol (by decide)⟩

end NarrativeMerge


